import Mathlib

/-!
# HelloWorldTest chess engine: board model

A shallow embedding of `src/board.cpp` / `src/board.h` (class `Board`) and the
coordinate helpers of `src/game.cpp`.  Cells are C `char`s, modelled by `Char`;
coordinates are C `int`s, modelled by `Int` (all arithmetic in the engine stays
within a few units of `0..7`, so no overflow can occur).  The `std::vector<Move> &out`
parameters are modelled by accumulator lists that are returned extended.
-/

namespace Chess

/-- The constant `BOARD_SIZE` of `board.h`. -/
def BOARD_SIZE : Nat := 8

/-- The enumeration `Color` of `board.h`. -/
inductive Color where
  | WHITE
  | BLACK
deriving DecidableEq, Repr

/-- The NUL character, the value `0` of a `char`. -/
def NUL : Char := Char.ofNat 0

/-- The structure `Move` of `board.h`; `promotion = NUL` means that no promotion is set. -/
structure Move where
  from_r : Int
  from_c : Int
  to_r : Int
  to_c : Int
  promotion : Char
deriving DecidableEq, Repr

/-- The class `Board` of `board.h`: the 8x8 grid `squares` and `sideToMove`. -/
structure Board where
  squares : Fin 8 → Fin 8 → Char
  sideToMove : Color

/-- Board::onBoard. -/
def onBoard (row col : Int) : Bool :=
  decide (row ≥ 0) && decide (row < (BOARD_SIZE : Int)) &&
    decide (col ≥ 0) && decide (col < (BOARD_SIZE : Int))

/-- Array index of an in-range coordinate. -/
def idx (i : Int) : Fin 8 := ⟨i.toNat % 8, Nat.mod_lt _ (by decide)⟩

/-- The read `squares[r][c]`.  Out of range the C++ read is undefined; the model
returns `NUL` there, and every theorem below reads in range only. -/
def Board.get (b : Board) (r c : Int) : Char :=
  if onBoard r c then b.squares (idx r) (idx c) else NUL

/-- The write `squares[r][c] = p`.  Out of range the C++ write is undefined; the
model leaves the grid unchanged there. -/
def Board.set (b : Board) (r c : Int) (p : Char) : Board :=
  if onBoard r c then
    { b with squares := fun i j => if i = idx r ∧ j = idx c then p else b.squares i j }
  else b

/-- Board::isWhitePiece. -/
def isWhitePiece (piece : Char) : Bool := decide (piece ≥ 'A') && decide (piece ≤ 'Z')

/-- Board::isBlackPiece. -/
def isBlackPiece (piece : Char) : Bool := decide (piece ≥ 'a') && decide (piece ≤ 'z')

/-- Board::isEmpty. -/
def isEmpty (piece : Char) : Bool := piece == '.'

/-- Board::isOpponentPiece. -/
def isOpponentPiece (piece : Char) (pieceIsWhite : Bool) : Bool :=
  if isEmpty piece then false
  else if pieceIsWhite then isBlackPiece piece else isWhitePiece piece

/-- The C library `tolower` in the "C" locale. -/
def tolower (ch : Char) : Char :=
  if ch ≥ 'A' ∧ ch ≤ 'Z' then Char.ofNat (ch.toNat + 32) else ch

/-- The table `kKnightDirs`. -/
def kKnightDirs : List (Int × Int) :=
  [(-2, -1), (-2, 1), (-1, -2), (-1, 2), (1, -2), (1, 2), (2, -1), (2, 1)]

/-- The table `kBishopDirs`. -/
def kBishopDirs : List (Int × Int) := [(-1, -1), (-1, 1), (1, -1), (1, 1)]

/-- The table `kRookDirs`. -/
def kRookDirs : List (Int × Int) := [(-1, 0), (1, 0), (0, -1), (0, 1)]

/-- The table `kKingDirs`. -/
def kKingDirs : List (Int × Int) :=
  [(-1, -1), (-1, 0), (-1, 1), (0, -1), (0, 1), (1, -1), (1, 0), (1, 1)]

/-- The rows written by `Board::reset`. -/
def resetRows : List (List Char) :=
  ["rnbqkbnr".toList, "pppppppp".toList, "........".toList, "........".toList,
   "........".toList, "........".toList, "PPPPPPPP".toList, "RNBQKBNR".toList]

/-- The character `rows[row][col]` of `Board::reset`. -/
def resetRows_at (row col : Nat) : Char := (resetRows.getD row []).getD col NUL

/-- Board::reset: the two nested loops assign every square, then white is to move. -/
def reset (b : Board) : Board :=
  let b1 := (List.range BOARD_SIZE).foldl (fun acc (row : Nat) =>
    (List.range BOARD_SIZE).foldl (fun acc (col : Nat) =>
      acc.set (row : Int) (col : Int) (resetRows_at row col)) acc) b
  { b1 with sideToMove := Color.WHITE }

/-- The body of the `while (onBoard(nextRow, nextCol))` loop of `Board::addSlidingMoves`
for one direction; `fuel` bounds the number of iterations. -/
def slideLoop (b : Board) (row col : Int) (pieceIsWhite : Bool) (dirRow dirCol : Int) :
    Nat → Int → Int → List Move → List Move
  | 0, _, _, out => out
  | fuel + 1, nextRow, nextCol, out =>
    if onBoard nextRow nextCol then
      let targetPiece := b.get nextRow nextCol
      if isEmpty targetPiece then
        slideLoop b row col pieceIsWhite dirRow dirCol fuel (nextRow + dirRow) (nextCol + dirCol)
          (out ++ [⟨row, col, nextRow, nextCol, NUL⟩])
      else if isOpponentPiece targetPiece pieceIsWhite then
        out ++ [⟨row, col, nextRow, nextCol, NUL⟩]
      else out
    else out

/-- Board::addSlidingMoves.  A ray leaves the board after at most `BOARD_SIZE` steps,
so `BOARD_SIZE` iterations of the inner loop are enough (see `slideLoop_fuel`). -/
def addSlidingMoves (b : Board) (row col : Int) (pieceIsWhite : Bool)
    (dirs : List (Int × Int)) (out : List Move) : List Move :=
  dirs.foldl (fun out d =>
    slideLoop b row col pieceIsWhite d.1 d.2 BOARD_SIZE (row + d.1) (col + d.2) out) out

/-- Board::addKnightMoves. -/
def addKnightMoves (b : Board) (row col : Int) (pieceIsWhite : Bool)
    (out : List Move) : List Move :=
  kKnightDirs.foldl (fun out d =>
    let nextRow := row + d.1
    let nextCol := col + d.2
    if !onBoard nextRow nextCol then out
    else
      let targetPiece := b.get nextRow nextCol
      if isEmpty targetPiece || isOpponentPiece targetPiece pieceIsWhite then
        out ++ [⟨row, col, nextRow, nextCol, NUL⟩]
      else out) out

/-- Board::addKingMoves. -/
def addKingMoves (b : Board) (row col : Int) (pieceIsWhite : Bool)
    (out : List Move) : List Move :=
  kKingDirs.foldl (fun out d =>
    let nextRow := row + d.1
    let nextCol := col + d.2
    if !onBoard nextRow nextCol then out
    else
      let targetPiece := b.get nextRow nextCol
      if isEmpty targetPiece || isOpponentPiece targetPiece pieceIsWhite then
        out ++ [⟨row, col, nextRow, nextCol, NUL⟩]
      else out) out

/-- The last-rank test of `Board::addPawnMoves`. -/
def lastRank (pieceIsWhite : Bool) (r : Int) : Bool :=
  (pieceIsWhite && r == 0) || (!pieceIsWhite && r == (BOARD_SIZE : Int) - 1)

/-- Board::addPawnMoves. -/
def addPawnMoves (b : Board) (row col : Int) (pieceIsWhite : Bool)
    (out : List Move) : List Move :=
  let forward : Int := if pieceIsWhite then -1 else 1
  let startRow : Int := if pieceIsWhite then 6 else 1
  let oneStepRow := row + forward
  let curCol := col
  let out1 :=
    if onBoard oneStepRow curCol && isEmpty (b.get oneStepRow curCol) then
      let m : Move := ⟨row, col, oneStepRow, curCol,
        if lastRank pieceIsWhite oneStepRow then 'q' else NUL⟩
      let out0 := out ++ [m]
      if row == startRow then
        let twoStepRow := row + 2 * forward
        if onBoard twoStepRow curCol && isEmpty (b.get twoStepRow curCol) then
          out0 ++ [⟨row, col, twoStepRow, curCol, NUL⟩]
        else out0
      else out0
    else out
  ([-1, 1] : List Int).foldl (fun out dcol =>
    let capRow := row + forward
    let capCol := col + dcol
    if !onBoard capRow capCol then out
    else if isOpponentPiece (b.get capRow capCol) pieceIsWhite then
      out ++ [⟨row, col, capRow, capCol, if lastRank pieceIsWhite capRow then 'q' else NUL⟩]
    else out) out1

/-- The body of the square loop of `Board::generateMoves`: the moves of the piece
on `(row, col)`, if it belongs to `side`, are appended to `moves`. -/
def squareMoves (b : Board) (side : Color) (row col : Int) (moves : List Move) : List Move :=
  let piece := b.get row col
  if isEmpty piece then moves
  else
    let pieceIsWhite := isWhitePiece piece
    if (side == Color.WHITE && !pieceIsWhite) || (side == Color.BLACK && !isBlackPiece piece) then
      moves
    else
      let pieceLower := tolower piece
      if pieceLower == 'p' then addPawnMoves b row col pieceIsWhite moves
      else if pieceLower == 'n' then addKnightMoves b row col pieceIsWhite moves
      else if pieceLower == 'b' then addSlidingMoves b row col pieceIsWhite kBishopDirs moves
      else if pieceLower == 'r' then addSlidingMoves b row col pieceIsWhite kRookDirs moves
      else if pieceLower == 'q' then
        addSlidingMoves b row col pieceIsWhite (kBishopDirs ++ kRookDirs) moves
      else if pieceLower == 'k' then addKingMoves b row col pieceIsWhite moves
      else moves

/-- The first loop of `Board::generateMoves` (lines 159-189): the vector `moves` of
pseudo-legal moves, before the legality filter. -/
def pseudoMoves (b : Board) (side : Color) : List Move :=
  (List.range BOARD_SIZE).foldl (fun moves (row : Nat) =>
    (List.range BOARD_SIZE).foldl (fun moves (col : Nat) =>
      squareMoves b side (row : Int) (col : Int) moves) moves) []

/-- Board::findKing; `none` stands for the result `false`. -/
def findKing (b : Board) (col : Color) : Option (Int × Int) :=
  let want : Char := if col == Color.WHITE then 'K' else 'k'
  (List.range BOARD_SIZE).findSome? (fun (row : Nat) =>
    (List.range BOARD_SIZE).findSome? (fun (c : Nat) =>
      if b.get (row : Int) (c : Int) == want then some ((row : Int), (c : Int)) else none))

/-- One ray walk of `Board::isAttacked` (the `while` loops at lines 258 and 276);
`a1` and `a2` are the two attacker letters looked for, `fuel` bounds the iterations
(`BOARD_SIZE` of them always suffice, see `attackRay_fuel`). -/
def attackRay (b : Board) (a1 a2 : Char) (dr dc : Int) : Nat → Int → Int → Bool
  | 0, _, _ => false
  | fuel + 1, checkRow, checkCol =>
    if onBoard checkRow checkCol then
      let p := b.get checkRow checkCol
      if !isEmpty p then
        if p == a1 || p == a2 then true else false
      else attackRay b a1 a2 dr dc fuel (checkRow + dr) (checkCol + dc)
    else false

/-- The pawn test of `Board::isAttacked` (lines 219-239). -/
def pawnAttack (b : Board) (r c : Int) (byColor : Color) : Bool :=
  if byColor == Color.WHITE then
    let pawnDir : Int := -1
    ([-1, 1] : List Int).any (fun dcol =>
      onBoard (r + pawnDir) (c + dcol) && b.get (r + pawnDir) (c + dcol) == 'P')
  else
    let pawnDir : Int := 1
    ([-1, 1] : List Int).any (fun dcol =>
      onBoard (r + pawnDir) (c + dcol) && b.get (r + pawnDir) (c + dcol) == 'p')

/-- The knight test of `Board::isAttacked` (lines 242-252). -/
def knightAttack (b : Board) (r c : Int) (byColor : Color) : Bool :=
  kKnightDirs.any (fun d =>
    if !onBoard (r + d.1) (c + d.2) then false
    else
      let p := b.get (r + d.1) (c + d.2)
      (byColor == Color.WHITE && p == 'N') || (byColor == Color.BLACK && p == 'n'))

/-- The bishop/queen ray test of `Board::isAttacked` (lines 255-270). -/
def bishopAttack (b : Board) (r c : Int) (byColor : Color) : Bool :=
  kBishopDirs.any (fun d =>
    if byColor == Color.WHITE then attackRay b 'B' 'Q' d.1 d.2 BOARD_SIZE (r + d.1) (c + d.2)
    else attackRay b 'b' 'q' d.1 d.2 BOARD_SIZE (r + d.1) (c + d.2))

/-- The rook/queen ray test of `Board::isAttacked` (lines 273-288). -/
def rookAttack (b : Board) (r c : Int) (byColor : Color) : Bool :=
  kRookDirs.any (fun d =>
    if byColor == Color.WHITE then attackRay b 'R' 'Q' d.1 d.2 BOARD_SIZE (r + d.1) (c + d.2)
    else attackRay b 'r' 'q' d.1 d.2 BOARD_SIZE (r + d.1) (c + d.2))

/-- The adjacent-king test of `Board::isAttacked` (lines 291-300). -/
def kingAttack (b : Board) (r c : Int) (byColor : Color) : Bool :=
  kKingDirs.any (fun d =>
    if onBoard (r + d.1) (c + d.2) then
      let p := b.get (r + d.1) (c + d.2)
      (byColor == Color.WHITE && p == 'K') || (byColor == Color.BLACK && p == 'k')
    else false)

/-- Board::isAttacked: the five tests in source order, each returning `true` early. -/
def isAttacked (b : Board) (r c : Int) (byColor : Color) : Bool :=
  if pawnAttack b r c byColor then true
  else if knightAttack b r c byColor then true
  else if bishopAttack b r c byColor then true
  else if rookAttack b r c byColor then true
  else if kingAttack b r c byColor then true
  else false

/-- Board::isInCheck. -/
def isInCheck (b : Board) (col : Color) : Bool :=
  match findKing b col with
  | none => false
  | some (kingRow, kingCol) =>
    isAttacked b kingRow kingCol (if col == Color.WHITE then Color.BLACK else Color.WHITE)

/-- Board::makeMove. -/
def makeMove (b : Board) (m : Move) : Board :=
  let piece := b.get m.from_r m.from_c
  let b1 := b.set m.to_r m.to_c piece
  let b2 := b1.set m.from_r m.from_c '.'
  let b3 :=
    if m.promotion ≠ NUL then
      if isWhitePiece piece then b2.set m.to_r m.to_c 'Q' else b2.set m.to_r m.to_c 'q'
    else b2
  { b3 with sideToMove :=
      if b3.sideToMove == Color.WHITE then Color.BLACK else Color.WHITE }

/-- Board::generateMoves: the pseudo-legal moves, then the loop (lines 192-201) that
keeps a move when the mover is not in check on the copy to which it was applied. -/
def generateMoves (b : Board) (side : Color) : List Move :=
  (pseudoMoves b side).foldl (fun legal mv =>
    let copy := makeMove b mv
    if !isInCheck copy side then legal ++ [mv] else legal) []

/-- The board built by the constructor `Board::Board()`: value-initialised members,
then `reset()`. -/
def Board.new : Board := reset ⟨fun _ _ => NUL, Color.WHITE⟩

/-- The starting position as a table. -/
def startBoard : Board := ⟨fun i j => resetRows_at i.val j.val, Color.WHITE⟩

/-- The grid read row by row, each row as a string (as `Board::print` walks it). -/
def boardRows (b : Board) : List String :=
  (List.range BOARD_SIZE).map (fun (row : Nat) =>
    String.mk ((List.range BOARD_SIZE).map (fun (col : Nat) => b.get (row : Int) (col : Int))))

/-- A move from the empty square d5 to e2, where a white pawn stands at the start. -/
def frameMove : Move := ⟨3, 3, 6, 4, NUL⟩

/-- The moves that `Board::addSlidingMoves` appends for the direction `d`. -/
def slideDir (b : Board) (row col : Int) (pieceIsWhite : Bool) (d : Int × Int) : List Move :=
  slideLoop b row col pieceIsWhite d.1 d.2 BOARD_SIZE (row + d.1) (col + d.2) []

/-- The move that `Board::addKnightMoves` and `Board::addKingMoves` append for the offset `d`. -/
def stepDir (b : Board) (row col : Int) (pieceIsWhite : Bool) (d : Int × Int) : List Move :=
  if onBoard (row + d.1) (col + d.2) &&
      (isEmpty (b.get (row + d.1) (col + d.2)) ||
        isOpponentPiece (b.get (row + d.1) (col + d.2)) pieceIsWhite) then
    [⟨row, col, row + d.1, col + d.2, NUL⟩]
  else []

/-- The forward direction of a pawn in `Board::addPawnMoves`. -/
def pawnForward (pieceIsWhite : Bool) : Int := if pieceIsWhite then -1 else 1

/-- The pushes that `Board::addPawnMoves` appends. -/
def pawnPushes (b : Board) (row col : Int) (pieceIsWhite : Bool) : List Move :=
  if onBoard (row + pawnForward pieceIsWhite) col &&
      isEmpty (b.get (row + pawnForward pieceIsWhite) col) then
    ⟨row, col, row + pawnForward pieceIsWhite, col,
      if lastRank pieceIsWhite (row + pawnForward pieceIsWhite) then 'q' else NUL⟩ ::
    (if row == (if pieceIsWhite then 6 else 1) then
      (if onBoard (row + 2 * pawnForward pieceIsWhite) col &&
          isEmpty (b.get (row + 2 * pawnForward pieceIsWhite) col) then
        [⟨row, col, row + 2 * pawnForward pieceIsWhite, col, NUL⟩]
      else [])
    else [])
  else []

/-- The capture that `Board::addPawnMoves` appends for the column offset `dcol`. -/
def pawnCapture (b : Board) (row col : Int) (pieceIsWhite : Bool) (dcol : Int) : List Move :=
  if onBoard (row + pawnForward pieceIsWhite) (col + dcol) &&
      isOpponentPiece (b.get (row + pawnForward pieceIsWhite) (col + dcol)) pieceIsWhite then
    [⟨row, col, row + pawnForward pieceIsWhite, col + dcol,
      if lastRank pieceIsWhite (row + pawnForward pieceIsWhite) then 'q' else NUL⟩]
  else []

/-- The direction set chosen by the dispatch of `Board::generateMoves` (lines 176-184)
for a sliding piece, by its lower-case letter. -/
def slidingDirs (pieceLower : Char) : List (Int × Int) :=
  if pieceLower == 'b' then kBishopDirs
  else if pieceLower == 'r' then kRookDirs
  else if pieceLower == 'q' then kBishopDirs ++ kRookDirs
  else []

/-- The square `(row, col)` holds a piece that `Board::generateMoves` moves for `side`. -/
def ownedBy (b : Board) (side : Color) (row col : Int) : Prop :=
  (side = Color.WHITE ∧ isWhitePiece (b.get row col) = true) ∨
    (side = Color.BLACK ∧ isBlackPiece (b.get row col) = true)

/-- The starting position after the pawn move a2-a4: the rook on a1 has two squares ahead. -/
def rookBoard : Board := makeMove Board.new ⟨6, 0, 4, 0, NUL⟩

/-- The square `(r, c)` lies strictly between `(kr, kc)` and `(ar, ac)` on their common
row or column. -/
def strictlyBetween (kr kc ar ac r c : Int) : Prop :=
  (kr = ar ∧ r = kr ∧ ((kc < c ∧ c < ac) ∨ (ac < c ∧ c < kc))) ∨
    (kc = ac ∧ c = kc ∧ ((kr < r ∧ r < ar) ∨ (ar < r ∧ r < kr)))

/-- The position after 1. e4 d5 2. exd5 Qxd5 3. Be2 Qe5: the bishop on e2 is pinned. -/
def pinBoard : Board :=
  ([⟨6, 4, 4, 4, NUL⟩, ⟨1, 3, 3, 3, NUL⟩, ⟨4, 4, 3, 3, NUL⟩, ⟨0, 3, 3, 3, NUL⟩,
    ⟨7, 5, 6, 4, NUL⟩, ⟨3, 3, 3, 4, NUL⟩] : List Move).foldl makeMove Board.new

/-- The move application of `Game::run` (lines 103-112): the first legal move with the
typed source and destination is played, its promotion letter replaced by the typed one
when both are set; `none` stands for "Illegal move". -/
def applyInput (b : Board) (m : Move) : Option Board :=
  match (generateMoves b b.sideToMove).find? (fun mv =>
      mv.from_r == m.from_r && mv.from_c == m.from_c &&
      mv.to_r == m.to_r && mv.to_c == m.to_c) with
  | some mv =>
    let toPlay : Move :=
      if mv.promotion ≠ NUL ∧ m.promotion ≠ NUL then { mv with promotion := m.promotion } else mv
    some (makeMove b toPlay)
  | none => none

/-- A sequence of typed moves applied from a position, as `Game::run` applies them. -/
def playInputs (b : Board) : List Move → Option Board
  | [] => some b
  | m :: ms =>
    match applyInput b m with
    | some b1 => playInputs b1 ms
    | none => none

/-- The inputs e2e4 f7f6 e4e5 e8f7 e5e6: a white pawn on e6 next to the black king on f7. -/
def pawnCheckInputs : List Move :=
  [⟨6, 4, 4, 4, NUL⟩, ⟨1, 5, 2, 5, NUL⟩, ⟨4, 4, 3, 4, NUL⟩, ⟨0, 4, 1, 5, NUL⟩,
   ⟨3, 4, 2, 4, NUL⟩]

/-- The inputs a2a4 b7b5 a4b5 a7a6 b5a6 c8b7 a6b7 b8c6 b7a8r: a capture on a8 for which
a rook is asked. -/
def underPromotionInputs : List Move :=
  [⟨6, 0, 4, 0, NUL⟩, ⟨1, 1, 3, 1, NUL⟩, ⟨4, 0, 3, 1, NUL⟩, ⟨1, 0, 2, 0, NUL⟩,
   ⟨3, 1, 2, 0, NUL⟩, ⟨0, 2, 1, 1, NUL⟩, ⟨2, 0, 1, 1, NUL⟩, ⟨0, 1, 2, 2, NUL⟩,
   ⟨1, 1, 0, 0, 'r'⟩]

/-- The moves that `Board::generateMoves` appends for a piece with lower-case letter
`pieceLower` standing on `(row, col)` (the dispatch at lines 172-187). -/
def kindMoves (b : Board) (row col : Int) (pieceIsWhite : Bool) (pieceLower : Char) :
    List Move :=
  if pieceLower == 'p' then
    pawnPushes b row col pieceIsWhite ++
      ([-1, 1] : List Int).flatMap (pawnCapture b row col pieceIsWhite)
  else if pieceLower == 'n' then kKnightDirs.flatMap (stepDir b row col pieceIsWhite)
  else if pieceLower == 'k' then kKingDirs.flatMap (stepDir b row col pieceIsWhite)
  else (slidingDirs pieceLower).flatMap (slideDir b row col pieceIsWhite)

/-- What every generated move satisfies: it starts on `(row, col)`, ends on another
square of the board that is empty or holds an opponent piece, and carries no promotion
or a queen promotion. -/
def wellFormedFrom (b : Board) (row col : Int) (pieceIsWhite : Bool) (m : Move) : Prop :=
  m.from_r = row ∧ m.from_c = col ∧ onBoard m.to_r m.to_c = true ∧
    ¬(m.to_r = row ∧ m.to_c = col) ∧
    (isEmpty (b.get m.to_r m.to_c) = true ∨
      isOpponentPiece (b.get m.to_r m.to_c) pieceIsWhite = true) ∧
    (m.promotion = NUL ∨ m.promotion = 'q')

/-- The upper-case letter whose `tolower` is the given lower-case piece letter. -/
def upperOf (pl : Char) : Char := Char.ofNat (pl.toNat - 32)

/-- The position after 1. e4 d5: the white pawn on e4 can capture on d5. -/
def captureBoard : Board :=
  ([⟨6, 4, 4, 4, NUL⟩, ⟨1, 3, 3, 3, NUL⟩] : List Move).foldl makeMove Board.new

/-- The letter of the king of a colour, as `Board::findKing` computes it. -/
def kingChar (col : Color) : Char := if col == Color.WHITE then 'K' else 'k'

/-- The starting position in which the white queen has been put on e8 in place of the
black king, by a direct call of makeMove. -/
def noKingBoard : Board := makeMove Board.new ⟨7, 3, 0, 4, NUL⟩

/-- The 64 squares of the board, row by row. -/
def allSquares : List (Int × Int) :=
  (List.range BOARD_SIZE).flatMap (fun (row : Nat) =>
    (List.range BOARD_SIZE).map (fun (col : Nat) => ((row : Int), (col : Int))))

/-- The number of kings of a colour on the grid. -/
def kingCount (b : Board) (col : Color) : Nat :=
  allSquares.countP (fun s => b.get s.1 s.2 == kingChar col)

/-- The grid holds at most one white king and at most one black king. -/
def atMostOneKingEach (b : Board) : Prop :=
  kingCount b Color.WHITE ≤ 1 ∧ kingCount b Color.BLACK ≤ 1

/-- The constant `kFileA`. -/
def kFileA : Char := 'a'

/-- The constant `kRank1`. -/
def kRank1 : Char := '1'

/-- The constant `kMinMoveChars`. -/
def kMinMoveChars : Nat := 4

/-- The constant `kPromoIndex`. -/
def kPromoIndex : Nat := 4

/-- The conversion `char(n)` of an `int`; exact for the values `0..127` that occur here. -/
def intToChar (n : Int) : Char := Char.ofNat n.toNat

/-- The function `fileToCol`. -/
def fileToCol (f : Char) : Int := (f.toNat : Int) - (kFileA.toNat : Int)

/-- The function `rankToRow`. -/
def rankToRow (r : Char) : Int := 7 - ((r.toNat : Int) - (kRank1.toNat : Int))

/-- The function `validFile`. -/
def validFile (f : Char) : Bool := decide (f ≥ 'a') && decide (f ≤ 'h')

/-- The function `validRank`. -/
def validRank (r : Char) : Bool := decide (r ≥ '1') && decide (r ≤ '8')

/-- The function `coordToStr`. -/
def coordToStr (r c : Int) : List Char :=
  [intToChar ((kFileA.toNat : Int) + c), intToChar ((kRank1.toNat : Int) + (7 - r))]

/-- The function `moveToStr`. -/
def moveToStr (m : Move) : List Char :=
  let s := coordToStr m.from_r m.from_c ++ coordToStr m.to_r m.to_c
  if m.promotion ≠ NUL then s ++ [tolower m.promotion] else s

/-- The C library `isalpha` in the "C" locale. -/
def isalpha (ch : Char) : Bool :=
  (decide (ch ≥ 'a') && decide (ch ≤ 'z')) || (decide (ch ≥ 'A') && decide (ch ≤ 'Z'))

/-- The C library `isdigit`. -/
def isdigit (ch : Char) : Bool := decide (ch ≥ '0') && decide (ch ≤ '9')

/-- Game::parseMoveStr; `none` stands for the result `false`, `some m` for `true` with
the move written to the output parameter. -/
def parseMoveStr (s : List Char) : Option Move :=
  let t := s.foldl (fun t ch =>
    if isalpha ch || isdigit ch || ch == '-' || ch == ' ' then t ++ [tolower ch] else t) []
  let t := t.filter (fun ch => ch != ' ')
  let t := t.filter (fun ch => ch != '-')
  if t.length < kMinMoveChars then none
  else
    let f1 := t.getD 0 NUL
    let r1 := t.getD 1 NUL
    let f2 := t.getD 2 NUL
    let r2 := t.getD 3 NUL
    if !(validFile f1 && validFile f2 && validRank r1 && validRank r2) then none
    else
      let promotion :=
        if t.length > kPromoIndex then
          let p := t.getD kPromoIndex NUL
          if p == 'q' || p == 'r' || p == 'b' || p == 'n' then p else NUL
        else NUL
      some ⟨rankToRow r1, fileToCol f1, rankToRow r2, fileToCol f2, promotion⟩

/-- The letter of a piece of colour `col` whose lower-case letter is `pl`. -/
def pieceLetter (col : Color) (pl : Char) : Char :=
  if col == Color.WHITE then upperOf pl else pl

/-- The cell holds '.' or one of the twelve piece letters, as every cell of a position
does (the letters written by `Board::reset` and `Board::makeMove`). -/
def validCell (ch : Char) : Bool := ".PNBRQKpnbrqk".toList.contains ch

/-- A rook ending: black king g8, white rook d1 and white king g1. -/
def endgameBoard : Board :=
  ⟨fun i j => ((["......k.".toList, "........".toList, "........".toList, "........".toList,
      "........".toList, "........".toList, "........".toList, "...R..K.".toList].getD
        i.val []).getD j.val '.'), Color.WHITE⟩

/-! ## Bounds-checked evaluation

The same functions with every grid access made through `Board.get?` / `Board.set?`,
which fail (`none`) outside the grid.  They are the functions above with each
`squares[r][c]` replaced by the checked access, in the same places. -/

/-- The read `squares[r][c]` with a bounds check. -/
def Board.get? (b : Board) (r c : Int) : Option Char :=
  if onBoard r c then some (b.squares (idx r) (idx c)) else none

/-- The write `squares[r][c] = p` with a bounds check. -/
def Board.set? (b : Board) (r c : Int) (p : Char) : Option Board :=
  if onBoard r c then
    some { b with squares := fun i j => if i = idx r ∧ j = idx c then p else b.squares i j }
  else none

/-- A loop that returns `true` at the first element for which the body does, with a
body that may fail. -/
def anyC {α : Type} (f : α → Option Bool) : List α → Option Bool
  | [] => some false
  | a :: as =>
    match f a with
    | none => none
    | some true => some true
    | some false => anyC f as

/-- A loop that returns at the first element for which the body yields a result, with
a body that may fail. -/
def findSomeC {α β : Type} (f : α → Option (Option β)) : List α → Option (Option β)
  | [] => some none
  | a :: as =>
    match f a with
    | none => none
    | some (some x) => some (some x)
    | some none => findSomeC f as

/-- Checked `slideLoop`. -/
def slideLoopC (b : Board) (row col : Int) (pieceIsWhite : Bool) (dirRow dirCol : Int) :
    Nat → Int → Int → List Move → Option (List Move)
  | 0, _, _, out => some out
  | fuel + 1, nextRow, nextCol, out =>
    if onBoard nextRow nextCol then
      match b.get? nextRow nextCol with
      | none => none
      | some targetPiece =>
        if isEmpty targetPiece then
          slideLoopC b row col pieceIsWhite dirRow dirCol fuel (nextRow + dirRow)
            (nextCol + dirCol) (out ++ [⟨row, col, nextRow, nextCol, NUL⟩])
        else if isOpponentPiece targetPiece pieceIsWhite then
          some (out ++ [⟨row, col, nextRow, nextCol, NUL⟩])
        else some out
    else some out

/-- Checked `addSlidingMoves`. -/
def addSlidingMovesC (b : Board) (row col : Int) (pieceIsWhite : Bool)
    (dirs : List (Int × Int)) (out : List Move) : Option (List Move) :=
  dirs.foldlM (fun out d =>
    slideLoopC b row col pieceIsWhite d.1 d.2 BOARD_SIZE (row + d.1) (col + d.2) out) out

/-- The checked body shared by `addKnightMoves` and `addKingMoves`. -/
def stepC (b : Board) (row col : Int) (pieceIsWhite : Bool) (out : List Move)
    (d : Int × Int) : Option (List Move) :=
  let nextRow := row + d.1
  let nextCol := col + d.2
  if !onBoard nextRow nextCol then some out
  else
    match b.get? nextRow nextCol with
    | none => none
    | some targetPiece =>
      if isEmpty targetPiece || isOpponentPiece targetPiece pieceIsWhite then
        some (out ++ [⟨row, col, nextRow, nextCol, NUL⟩])
      else some out

/-- Checked `addKnightMoves`. -/
def addKnightMovesC (b : Board) (row col : Int) (pieceIsWhite : Bool)
    (out : List Move) : Option (List Move) :=
  kKnightDirs.foldlM (stepC b row col pieceIsWhite) out

/-- Checked `addKingMoves`. -/
def addKingMovesC (b : Board) (row col : Int) (pieceIsWhite : Bool)
    (out : List Move) : Option (List Move) :=
  kKingDirs.foldlM (stepC b row col pieceIsWhite) out

/-- A test `onBoard(r, c) && P(squares[r][c])`: the read happens only on the board. -/
def guardedTest (b : Board) (r c : Int) (P : Char → Bool) : Option Bool :=
  if onBoard r c then
    match b.get? r c with
    | none => none
    | some p => some (P p)
  else some false

/-- Checked `addPawnMoves`. -/
def addPawnMovesC (b : Board) (row col : Int) (pieceIsWhite : Bool)
    (out : List Move) : Option (List Move) :=
  let forward : Int := if pieceIsWhite then -1 else 1
  let startRow : Int := if pieceIsWhite then 6 else 1
  let oneStepRow := row + forward
  let curCol := col
  let out1 : Option (List Move) :=
    match guardedTest b oneStepRow curCol isEmpty with
    | none => none
    | some true =>
      let m : Move := ⟨row, col, oneStepRow, curCol,
        if lastRank pieceIsWhite oneStepRow then 'q' else NUL⟩
      let out0 := out ++ [m]
      if row == startRow then
        let twoStepRow := row + 2 * forward
        match guardedTest b twoStepRow curCol isEmpty with
        | none => none
        | some true => some (out0 ++ [⟨row, col, twoStepRow, curCol, NUL⟩])
        | some false => some out0
      else some out0
    | some false => some out
  match out1 with
  | none => none
  | some out1 =>
    ([-1, 1] : List Int).foldlM (fun out dcol =>
      let capRow := row + forward
      let capCol := col + dcol
      if !onBoard capRow capCol then some out
      else
        match b.get? capRow capCol with
        | none => none
        | some t =>
          if isOpponentPiece t pieceIsWhite then
            some (out ++ [⟨row, col, capRow, capCol,
              if lastRank pieceIsWhite capRow then 'q' else NUL⟩])
          else some out) out1

/-- Checked `squareMoves`. -/
def squareMovesC (b : Board) (side : Color) (row col : Int) (moves : List Move) :
    Option (List Move) :=
  match b.get? row col with
  | none => none
  | some piece =>
    if isEmpty piece then some moves
    else
      let pieceIsWhite := isWhitePiece piece
      if (side == Color.WHITE && !pieceIsWhite) ||
          (side == Color.BLACK && !isBlackPiece piece) then
        some moves
      else
        let pieceLower := tolower piece
        if pieceLower == 'p' then addPawnMovesC b row col pieceIsWhite moves
        else if pieceLower == 'n' then addKnightMovesC b row col pieceIsWhite moves
        else if pieceLower == 'b' then addSlidingMovesC b row col pieceIsWhite kBishopDirs moves
        else if pieceLower == 'r' then addSlidingMovesC b row col pieceIsWhite kRookDirs moves
        else if pieceLower == 'q' then
          addSlidingMovesC b row col pieceIsWhite (kBishopDirs ++ kRookDirs) moves
        else if pieceLower == 'k' then addKingMovesC b row col pieceIsWhite moves
        else some moves

/-- Checked `pseudoMoves`. -/
def pseudoMovesC (b : Board) (side : Color) : Option (List Move) :=
  (List.range BOARD_SIZE).foldlM (fun moves (row : Nat) =>
    (List.range BOARD_SIZE).foldlM (fun moves (col : Nat) =>
      squareMovesC b side (row : Int) (col : Int) moves) moves) []

/-- Checked `findKing`; the outer `Option` is the bounds check. -/
def findKingC (b : Board) (col : Color) : Option (Option (Int × Int)) :=
  let want : Char := if col == Color.WHITE then 'K' else 'k'
  findSomeC (fun (row : Nat) =>
    findSomeC (fun (c : Nat) =>
      match b.get? (row : Int) (c : Int) with
      | none => none
      | some p => some (if p == want then some ((row : Int), (c : Int)) else none))
      (List.range BOARD_SIZE)) (List.range BOARD_SIZE)

/-- Checked `attackRay`. -/
def attackRayC (b : Board) (a1 a2 : Char) (dr dc : Int) : Nat → Int → Int → Option Bool
  | 0, _, _ => some false
  | fuel + 1, checkRow, checkCol =>
    if onBoard checkRow checkCol then
      match b.get? checkRow checkCol with
      | none => none
      | some p =>
        if !isEmpty p then
          if p == a1 || p == a2 then some true else some false
        else attackRayC b a1 a2 dr dc fuel (checkRow + dr) (checkCol + dc)
    else some false

/-- Checked `pawnAttack`. -/
def pawnAttackC (b : Board) (r c : Int) (byColor : Color) : Option Bool :=
  if byColor == Color.WHITE then
    anyC (fun dcol => guardedTest b (r + -1) (c + dcol) (fun p => p == 'P')) ([-1, 1] : List Int)
  else
    anyC (fun dcol => guardedTest b (r + 1) (c + dcol) (fun p => p == 'p')) ([-1, 1] : List Int)

/-- Checked `knightAttack`. -/
def knightAttackC (b : Board) (r c : Int) (byColor : Color) : Option Bool :=
  anyC (fun d => guardedTest b (r + d.1) (c + d.2) (fun p =>
    (byColor == Color.WHITE && p == 'N') || (byColor == Color.BLACK && p == 'n'))) kKnightDirs

/-- Checked `bishopAttack`. -/
def bishopAttackC (b : Board) (r c : Int) (byColor : Color) : Option Bool :=
  anyC (fun d =>
    if byColor == Color.WHITE then attackRayC b 'B' 'Q' d.1 d.2 BOARD_SIZE (r + d.1) (c + d.2)
    else attackRayC b 'b' 'q' d.1 d.2 BOARD_SIZE (r + d.1) (c + d.2)) kBishopDirs

/-- Checked `rookAttack`. -/
def rookAttackC (b : Board) (r c : Int) (byColor : Color) : Option Bool :=
  anyC (fun d =>
    if byColor == Color.WHITE then attackRayC b 'R' 'Q' d.1 d.2 BOARD_SIZE (r + d.1) (c + d.2)
    else attackRayC b 'r' 'q' d.1 d.2 BOARD_SIZE (r + d.1) (c + d.2)) kRookDirs

/-- Checked `kingAttack`. -/
def kingAttackC (b : Board) (r c : Int) (byColor : Color) : Option Bool :=
  anyC (fun d => guardedTest b (r + d.1) (c + d.2) (fun p =>
    (byColor == Color.WHITE && p == 'K') || (byColor == Color.BLACK && p == 'k'))) kKingDirs

/-- Checked `isAttacked`: a later test runs only when the earlier ones returned false. -/
def isAttackedC (b : Board) (r c : Int) (byColor : Color) : Option Bool :=
  anyC (fun test => test)
    [pawnAttackC b r c byColor, knightAttackC b r c byColor, bishopAttackC b r c byColor,
      rookAttackC b r c byColor, kingAttackC b r c byColor]

/-- Checked `isInCheck`. -/
def isInCheckC (b : Board) (col : Color) : Option Bool :=
  match findKingC b col with
  | none => none
  | some none => some false
  | some (some (kingRow, kingCol)) =>
    isAttackedC b kingRow kingCol (if col == Color.WHITE then Color.BLACK else Color.WHITE)

/-- Checked `makeMove`. -/
def makeMoveC (b : Board) (m : Move) : Option Board :=
  match b.get? m.from_r m.from_c with
  | none => none
  | some piece =>
    match b.set? m.to_r m.to_c piece with
    | none => none
    | some b1 =>
      match b1.set? m.from_r m.from_c '.' with
      | none => none
      | some b2 =>
        let b3 : Option Board :=
          if m.promotion ≠ NUL then
            if isWhitePiece piece then b2.set? m.to_r m.to_c 'Q' else b2.set? m.to_r m.to_c 'q'
          else some b2
        match b3 with
        | none => none
        | some b3 =>
          some { b3 with sideToMove :=
            if b3.sideToMove == Color.WHITE then Color.BLACK else Color.WHITE }

/-- Checked `generateMoves`. -/
def generateMovesC (b : Board) (side : Color) : Option (List Move) :=
  match pseudoMovesC b side with
  | none => none
  | some moves =>
    moves.foldlM (fun legal mv =>
      match makeMoveC b mv with
      | none => none
      | some copy =>
        match isInCheckC copy side with
        | none => none
        | some chk => some (if !chk then legal ++ [mv] else legal)) []

/-! ## Basic facts about the grid -/

theorem onBoard_iff (r c : Int) : onBoard r c = true ↔ 0 ≤ r ∧ r < 8 ∧ 0 ≤ c ∧ c < 8 := by
  simp [onBoard, BOARD_SIZE, and_assoc]

theorem idx_inj {r r' : Int} (h0 : 0 ≤ r) (h1 : r < 8) (h0' : 0 ≤ r') (h1' : r' < 8) :
    idx r' = idx r ↔ r' = r := by
  simp only [idx, Fin.mk.injEq]
  omega

theorem get_set (b : Board) (r c : Int) (p : Char) (r' c' : Int) (h : onBoard r' c' = true) :
    (b.set r c p).get r' c' = if r' = r ∧ c' = c then p else b.get r' c' := by
  have h' := (onBoard_iff r' c').1 h
  unfold Board.set
  by_cases hrc : onBoard r c = true
  · have hrc' := (onBoard_iff r c).1 hrc
    simp only [hrc, if_true, Board.get, h]
    simp only [idx_inj hrc'.1 hrc'.2.1 h'.1 h'.2.1, idx_inj hrc'.2.2.1 hrc'.2.2.2 h'.2.2.1 h'.2.2.2]
  · have : ¬ (r' = r ∧ c' = c) := by
      rintro ⟨rfl, rfl⟩
      exact hrc h
    simp [hrc, this]

theorem sideToMove_set (b : Board) (r c : Int) (p : Char) :
    (b.set r c p).sideToMove = b.sideToMove := by
  unfold Board.set
  split <;> rfl

theorem squares_set (b : Board) (row col : Nat) (hrow : row < 8) (hcol : col < 8) (p : Char)
    (i j : Fin 8) :
    (b.set (row : Int) (col : Int) p).squares i j =
      if i.val = row ∧ j.val = col then p else b.squares i j := by
  have hon : onBoard (row : Int) (col : Int) = true := by
    rw [onBoard_iff]; omega
  have e1 : (i = idx (row : Int)) ↔ i.val = row := by
    rw [Fin.ext_iff]; simp [idx]; omega
  have e2 : (j = idx (col : Int)) ↔ j.val = col := by
    rw [Fin.ext_iff]; simp [idx]; omega
  simp only [Board.set, hon, if_true, e1, e2]

theorem set_squares_inner (f : Nat → Char) (row : Nat) (hrow : row < 8) (cs : List Nat)
    (hcs : ∀ x ∈ cs, x < 8) (acc : Board) (i j : Fin 8) :
    ((cs.foldl (fun acc col => acc.set (row : Int) (col : Int) (f col)) acc).squares i j) =
      if i.val = row ∧ j.val ∈ cs then f j.val else acc.squares i j := by
  induction cs using List.reverseRecOn generalizing acc with
  | nil => simp
  | append_singleton cs x ih =>
    have hx : x < 8 := hcs x (by simp)
    have ih' := ih (fun y hy => hcs y (by simp [hy])) acc
    rw [List.foldl_append, List.foldl_cons, List.foldl_nil]
    rw [squares_set _ row x hrow hx, ih']
    simp only [List.mem_append, List.mem_singleton]
    by_cases h1 : i.val = row <;> by_cases h2 : j.val = x <;> simp [h1, h2]

theorem sideToMove_foldl_set {α : Type} (xs : List α) (g : Board → α → Board)
    (hg : ∀ acc x, (g acc x).sideToMove = acc.sideToMove) (acc : Board) :
    (xs.foldl g acc).sideToMove = acc.sideToMove := by
  induction xs generalizing acc with
  | nil => rfl
  | cons x xs ih => rw [List.foldl_cons, ih, hg]

theorem set_squares_outer (f : Nat → Nat → Char) (rs : List Nat) (hrs : ∀ x ∈ rs, x < 8)
    (acc : Board) (i j : Fin 8) :
    ((rs.foldl (fun acc row => (List.range BOARD_SIZE).foldl
        (fun acc col => acc.set (row : Int) (col : Int) (f row col)) acc) acc).squares i j) =
      if i.val ∈ rs then f i.val j.val else acc.squares i j := by
  induction rs using List.reverseRecOn generalizing acc with
  | nil => simp
  | append_singleton rs x ih =>
    have hx : x < 8 := hrs x (by simp)
    have ih' := ih (fun y hy => hrs y (by simp [hy])) acc
    rw [List.foldl_append, List.foldl_cons, List.foldl_nil]
    rw [set_squares_inner (f x) x hx (List.range BOARD_SIZE)
      (fun y hy => by simpa [BOARD_SIZE] using hy), ih']
    have hj : j.val ∈ List.range BOARD_SIZE := by simp [BOARD_SIZE]
    simp only [hj, and_true, List.mem_append, List.mem_singleton]
    by_cases h1 : i.val = x
    · simp [h1]
    · simp [h1]

theorem reset_eq (b : Board) : reset b = startBoard := by
  unfold reset startBoard
  simp only [Board.mk.injEq, and_true]
  funext i j
  rw [set_squares_outer resetRows_at (List.range BOARD_SIZE)
    (fun y hy => by simpa [BOARD_SIZE] using hy)]
  simp [BOARD_SIZE]

theorem boardRows_startBoard : boardRows startBoard =
    ["rnbqkbnr", "pppppppp", "........", "........",
     "........", "........", "PPPPPPPP", "RNBQKBNR"] := by decide!

/-- C8: whatever the board was, reset gives the standard starting array with white to move. -/
theorem reset_idempotent (b b' : Board) :
    reset b = reset b' ∧
    boardRows (reset b) =
      ["rnbqkbnr", "pppppppp", "........", "........",
       "........", "........", "PPPPPPPP", "RNBQKBNR"] ∧
    (reset b).sideToMove = Color.WHITE ∧
    reset (reset b) = reset b := by
  refine ⟨by rw [reset_eq, reset_eq], ?_, ?_, by rw [reset_eq, reset_eq]⟩
  · rw [reset_eq]; exact boardRows_startBoard
  · rw [reset_eq]; rfl

theorem makeMove_get (b : Board) (m : Move) (r c : Int) (h : onBoard r c = true) :
    (makeMove b m).get r c =
      if m.promotion ≠ NUL ∧ r = m.to_r ∧ c = m.to_c then
        (if isWhitePiece (b.get m.from_r m.from_c) then 'Q' else 'q')
      else if r = m.from_r ∧ c = m.from_c then '.'
      else if r = m.to_r ∧ c = m.to_c then b.get m.from_r m.from_c
      else b.get r c := by
  have key : ∀ (x : Board) (s : Color), Board.get { x with sideToMove := s } r c = x.get r c :=
    fun _ _ => rfl
  simp only [makeMove, key]
  by_cases hp : m.promotion = NUL
  · simp only [hp, ne_eq, not_true_eq_false, if_false, false_and, get_set _ _ _ _ _ _ h]
  · by_cases hw : isWhitePiece (b.get m.from_r m.from_c) = true
    · simp only [hp, hw, ne_eq, not_false_eq_true, if_true, true_and]
      rw [get_set _ _ _ _ _ _ h, get_set _ _ _ _ _ _ h, get_set _ _ _ _ _ _ h]
    · simp only [hp, hw, ne_eq, not_false_eq_true, if_true, true_and]
      rw [if_neg (by simp), get_set _ _ _ _ _ _ h, get_set _ _ _ _ _ _ h, get_set _ _ _ _ _ _ h]
      by_cases h1 : r = m.to_r ∧ c = m.to_c <;> simp [h1]

theorem makeMove_sideToMove (b : Board) (m : Move) :
    (makeMove b m).sideToMove =
      if b.sideToMove = Color.WHITE then Color.BLACK else Color.WHITE := by
  simp only [makeMove]
  split
  · split <;> simp [sideToMove_set]
  · simp [sideToMove_set]

/-- C7: a move without promotion between two different squares of the board puts the
content of the source square on the destination, empties the source, leaves the other
squares as they were and passes the turn to the other side. -/
theorem makeMove_frame (b : Board) (m : Move)
    (hfrom : onBoard m.from_r m.from_c = true) (hto : onBoard m.to_r m.to_c = true)
    (hne : ¬(m.from_r = m.to_r ∧ m.from_c = m.to_c)) (hp : m.promotion = NUL) :
    (makeMove b m).get m.to_r m.to_c = b.get m.from_r m.from_c ∧
    (makeMove b m).get m.from_r m.from_c = '.' ∧
    (∀ r c : Int, onBoard r c = true → ¬(r = m.from_r ∧ c = m.from_c) →
      ¬(r = m.to_r ∧ c = m.to_c) → (makeMove b m).get r c = b.get r c) ∧
    (makeMove b m).sideToMove ≠ b.sideToMove ∧
    (b.sideToMove = Color.WHITE → (makeMove b m).sideToMove = Color.BLACK) ∧
    (b.sideToMove = Color.BLACK → (makeMove b m).sideToMove = Color.WHITE) := by
  have hne' : ¬(m.to_r = m.from_r ∧ m.to_c = m.from_c) := fun h => hne ⟨h.1.symm, h.2.symm⟩
  refine ⟨?_, ?_, ?_, ?_, ?_, ?_⟩
  · rw [makeMove_get b m _ _ hto]; simp [hp, hne']
  · rw [makeMove_get b m _ _ hfrom]; simp [hp]
  · intro r c h h1 h2
    rw [makeMove_get b m _ _ h]; simp [hp, h1, h2]
  · rw [makeMove_sideToMove]; cases b.sideToMove <;> simp
  · intro h; rw [makeMove_sideToMove]; simp [h]
  · intro h; rw [makeMove_sideToMove]; simp [h]

theorem makeMove_frame_witness :
    (makeMove Board.new frameMove).get 6 4 = Board.new.get 3 3 ∧
    (makeMove Board.new frameMove).get 3 3 = '.' ∧
    (∀ r c : Int, onBoard r c = true → ¬(r = 3 ∧ c = 3) →
      ¬(r = 6 ∧ c = 4) → (makeMove Board.new frameMove).get r c = Board.new.get r c) ∧
    (makeMove Board.new frameMove).sideToMove ≠ Board.new.sideToMove ∧
    (Board.new.sideToMove = Color.WHITE →
      (makeMove Board.new frameMove).sideToMove = Color.BLACK) ∧
    (Board.new.sideToMove = Color.BLACK →
      (makeMove Board.new frameMove).sideToMove = Color.WHITE) :=
  makeMove_frame Board.new frameMove (by decide) (by decide) (by decide) (by decide)

/-! ## The accumulator loops as list comprehensions -/

theorem foldl_acc {α β : Type} (f : List β → α → List β) (g : α → List β)
    (h : ∀ out x, f out x = out ++ g x) (xs : List α) (out : List β) :
    xs.foldl f out = out ++ xs.flatMap g := by
  induction xs generalizing out with
  | nil => simp
  | cons x xs ih => rw [List.foldl_cons, ih, h, List.flatMap_cons, List.append_assoc]

theorem slideLoop_acc (b : Board) (row col : Int) (w : Bool) (dr dc : Int) (fuel : Nat)
    (nr nc : Int) (out : List Move) :
    slideLoop b row col w dr dc fuel nr nc out =
      out ++ slideLoop b row col w dr dc fuel nr nc [] := by
  induction fuel generalizing nr nc out with
  | zero => simp [slideLoop]
  | succ n ih =>
    simp only [slideLoop]
    split
    · split
      · rw [ih, ih _ _ ([] ++ _)]; simp
      · split <;> simp
    · simp

theorem addSlidingMoves_acc (b : Board) (row col : Int) (w : Bool) (dirs : List (Int × Int))
    (out : List Move) :
    addSlidingMoves b row col w dirs out = out ++ dirs.flatMap (slideDir b row col w) := by
  unfold addSlidingMoves
  exact foldl_acc _ (slideDir b row col w)
    (fun out d => slideLoop_acc b row col w d.1 d.2 _ _ _ out) dirs out

theorem addKnightMoves_acc (b : Board) (row col : Int) (w : Bool) (out : List Move) :
    addKnightMoves b row col w out = out ++ kKnightDirs.flatMap (stepDir b row col w) := by
  unfold addKnightMoves
  refine foldl_acc _ _ (fun out d => ?_) _ out
  simp only [stepDir]
  cases onBoard (row + d.1) (col + d.2) <;>
    cases (isEmpty (b.get (row + d.1) (col + d.2)) ||
        isOpponentPiece (b.get (row + d.1) (col + d.2)) w) <;> simp

theorem addKingMoves_acc (b : Board) (row col : Int) (w : Bool) (out : List Move) :
    addKingMoves b row col w out = out ++ kKingDirs.flatMap (stepDir b row col w) := by
  unfold addKingMoves
  refine foldl_acc _ _ (fun out d => ?_) _ out
  simp only [stepDir]
  cases onBoard (row + d.1) (col + d.2) <;>
    cases (isEmpty (b.get (row + d.1) (col + d.2)) ||
        isOpponentPiece (b.get (row + d.1) (col + d.2)) w) <;> simp

theorem addPawnMoves_acc (b : Board) (row col : Int) (w : Bool) (out : List Move) :
    addPawnMoves b row col w out =
      out ++ (pawnPushes b row col w ++ ([-1, 1] : List Int).flatMap (pawnCapture b row col w)) := by
  unfold addPawnMoves
  simp only []
  rw [foldl_acc _ (pawnCapture b row col w)]
  · rw [← List.append_assoc]
    congr 1
    simp only [pawnPushes, pawnForward]
    split_ifs <;> simp
  · intro out d
    simp only [pawnCapture, pawnForward]
    cases onBoard (row + if w = true then -1 else 1) (col + d) <;>
      cases isOpponentPiece (b.get (row + if w = true then -1 else 1) (col + d)) w <;> simp

theorem squareMoves_acc (b : Board) (side : Color) (row col : Int) (moves : List Move) :
    squareMoves b side row col moves = moves ++ squareMoves b side row col [] := by
  simp only [squareMoves]
  split_ifs <;>
    simp [addPawnMoves_acc b row col _ moves, addKnightMoves_acc b row col _ moves,
      addKingMoves_acc b row col _ moves, addSlidingMoves_acc b row col _ _ moves,
      addPawnMoves_acc b row col _ [], addKnightMoves_acc b row col _ [],
      addKingMoves_acc b row col _ [], addSlidingMoves_acc b row col _ _ []]

theorem pseudoMoves_eq (b : Board) (side : Color) :
    pseudoMoves b side =
      (List.range BOARD_SIZE).flatMap (fun row =>
        (List.range BOARD_SIZE).flatMap (fun col =>
          squareMoves b side (row : Int) (col : Int) [])) := by
  unfold pseudoMoves
  rw [foldl_acc _ (fun row : Nat => (List.range BOARD_SIZE).flatMap (fun col : Nat =>
          squareMoves b side (row : Int) (col : Int) []))]
  · simp
  · intro out row
    exact foldl_acc _ (fun col : Nat => squareMoves b side (row : Int) (col : Int) [])
      (fun out col => squareMoves_acc b side _ _ out) _ out

theorem mem_pseudoMoves (b : Board) (side : Color) (m : Move) :
    m ∈ pseudoMoves b side ↔
      ∃ row col : Int, onBoard row col = true ∧ m ∈ squareMoves b side row col [] := by
  rw [pseudoMoves_eq]
  simp only [List.mem_flatMap, List.mem_range, BOARD_SIZE]
  constructor
  · rintro ⟨r, hr, c, hc, h⟩
    exact ⟨r, c, by rw [onBoard_iff]; omega, h⟩
  · rintro ⟨r, c, hon, h⟩
    rw [onBoard_iff] at hon
    refine ⟨r.toNat, by omega, c.toNat, by omega, ?_⟩
    rw [Int.toNat_of_nonneg hon.1, Int.toNat_of_nonneg hon.2.2.1]
    exact h

theorem filterLoop_eq (p : Move → Bool) (xs : List Move) (legal : List Move) :
    xs.foldl (fun legal mv => if p mv then legal ++ [mv] else legal) legal =
      legal ++ xs.filter p := by
  induction xs generalizing legal with
  | nil => simp
  | cons x xs ih =>
    rw [List.foldl_cons, ih]
    by_cases h : p x = true <;> simp [h, List.filter_cons]

theorem generateMoves_eq_filter (b : Board) (side : Color) :
    generateMoves b side =
      (pseudoMoves b side).filter (fun mv => !isInCheck (makeMove b mv) side) := by
  unfold generateMoves
  simp only []
  rw [filterLoop_eq (fun mv => !isInCheck (makeMove b mv) side)]
  simp

/-- C1: no move returned by generateMoves leaves the mover in check. -/
theorem generateMoves_not_in_check (b : Board) (c : Color) (m : Move)
    (h : m ∈ generateMoves b c) : isInCheck (makeMove b m) c = false := by
  rw [generateMoves_eq_filter, List.mem_filter] at h
  simpa using h.2

theorem generateMoves_not_in_check_witness :
    (⟨6, 4, 4, 4, NUL⟩ : Move) ∈ generateMoves Board.new Color.WHITE ∧
      isInCheck (makeMove Board.new ⟨6, 4, 4, 4, NUL⟩) Color.WHITE = false :=
  ⟨by decide!, generateMoves_not_in_check Board.new Color.WHITE ⟨6, 4, 4, 4, NUL⟩ (by decide!)⟩

/-- C3: generateMoves is the pseudo-legal list, scanned row-major, filtered in order
by "the mover is not in check after the move". -/
theorem generateMoves_refines_filter (b : Board) (c : Color) :
    generateMoves b c =
      List.filter (fun mv => !isInCheck (makeMove b mv) c)
        ((List.range BOARD_SIZE).flatMap (fun row =>
          (List.range BOARD_SIZE).flatMap (fun col =>
            squareMoves b c (row : Int) (col : Int) []))) := by
  rw [generateMoves_eq_filter, pseudoMoves_eq]

/-- C2: the twenty moves of white in the starting position, in generation order. -/
theorem generateMoves_start (b : Board) :
    generateMoves (reset b) Color.WHITE =
      [⟨6, 0, 5, 0, NUL⟩, ⟨6, 0, 4, 0, NUL⟩, ⟨6, 1, 5, 1, NUL⟩, ⟨6, 1, 4, 1, NUL⟩,
       ⟨6, 2, 5, 2, NUL⟩, ⟨6, 2, 4, 2, NUL⟩, ⟨6, 3, 5, 3, NUL⟩, ⟨6, 3, 4, 3, NUL⟩,
       ⟨6, 4, 5, 4, NUL⟩, ⟨6, 4, 4, 4, NUL⟩, ⟨6, 5, 5, 5, NUL⟩, ⟨6, 5, 4, 5, NUL⟩,
       ⟨6, 6, 5, 6, NUL⟩, ⟨6, 6, 4, 6, NUL⟩, ⟨6, 7, 5, 7, NUL⟩, ⟨6, 7, 4, 7, NUL⟩,
       ⟨7, 1, 5, 0, NUL⟩, ⟨7, 1, 5, 2, NUL⟩, ⟨7, 6, 5, 5, NUL⟩, ⟨7, 6, 5, 7, NUL⟩] ∧
    (generateMoves (reset b) Color.WHITE).length = 20 := by
  rw [reset_eq]
  decide!

/-! ## Sliding rays -/

theorem mem_slideLoop (b : Board) (row col : Int) (w : Bool) (dr dc : Int) (fuel : Nat)
    (nr nc : Int) (m : Move) :
    m ∈ slideLoop b row col w dr dc fuel nr nc [] ↔
      ∃ k : Nat, k < fuel ∧ m = ⟨row, col, nr + k * dr, nc + k * dc, NUL⟩ ∧
        (∀ j : Nat, j < k → onBoard (nr + j * dr) (nc + j * dc) = true ∧
          isEmpty (b.get (nr + j * dr) (nc + j * dc)) = true) ∧
        onBoard (nr + k * dr) (nc + k * dc) = true ∧
        (isEmpty (b.get (nr + k * dr) (nc + k * dc)) = true ∨
          isOpponentPiece (b.get (nr + k * dr) (nc + k * dc)) w = true) := by
  induction fuel generalizing nr nc with
  | zero => simp [slideLoop]
  | succ n ih =>
    have shift : ∀ k : Nat, nr + ((k + 1 : Nat) : Int) * dr = nr + dr + (k : Int) * dr ∧
        nc + ((k + 1 : Nat) : Int) * dc = nc + dc + (k : Int) * dc := by
      intro k; push_cast; constructor <;> ring
    simp only [slideLoop]
    by_cases hon : onBoard nr nc = true
    · by_cases he : isEmpty (b.get nr nc) = true
      · simp only [hon, he, if_true]
        rw [slideLoop_acc, List.mem_append, ih]
        constructor
        · rintro (h | ⟨k, hk, hm, hall, hk1, hk2⟩)
          · refine ⟨0, by omega, by simpa using h, by simp, by simpa using hon, ?_⟩
            left; simpa using he
          · refine ⟨k + 1, by omega, ?_, ?_, ?_, ?_⟩
            · rw [(shift k).1, (shift k).2]; exact hm
            · intro j hj
              cases j with
              | zero => simpa using ⟨hon, he⟩
              | succ j =>
                rw [(shift j).1, (shift j).2]
                exact hall j (by omega)
            · rw [(shift k).1, (shift k).2]; exact hk1
            · rw [(shift k).1, (shift k).2]; exact hk2
        · rintro ⟨k, hk, hm, hall, hk1, hk2⟩
          cases k with
          | zero => left; simpa using hm
          | succ k =>
            right
            refine ⟨k, by omega, ?_, ?_, ?_, ?_⟩
            · rw [← (shift k).1, ← (shift k).2]; exact hm
            · intro j hj
              rw [← (shift j).1, ← (shift j).2]
              exact hall (j + 1) (by omega)
            · rw [← (shift k).1, ← (shift k).2]; exact hk1
            · rw [← (shift k).1, ← (shift k).2]; exact hk2
      · have blocked : ∀ k : Nat, (∀ j : Nat, j < k → onBoard (nr + j * dr) (nc + j * dc) = true ∧
            isEmpty (b.get (nr + j * dr) (nc + j * dc)) = true) → k = 0 := by
          intro k hall
          by_contra hk
          have := (hall 0 (by omega)).2
          simp at this
          exact he this
        by_cases ho : isOpponentPiece (b.get nr nc) w = true
        · simp only [hon, he, ho, if_true, if_false, Bool.false_eq_true, List.nil_append, List.mem_singleton]
          constructor
          · intro h
            exact ⟨0, by omega, by simpa using h, by simp, by simpa using hon,
              Or.inr (by simpa using ho)⟩
          · rintro ⟨k, _, hm, hall, _, _⟩
            have := blocked k hall
            subst this
            simpa using hm
        · simp only [hon, he, ho, if_true, if_false, Bool.false_eq_true, List.not_mem_nil, false_iff]
          rintro ⟨k, _, _, hall, _, hk2⟩
          have := blocked k hall
          subst this
          simp at hk2
          rcases hk2 with h | h
          · exact he h
          · exact ho h
    · simp only [hon, if_false, Bool.false_eq_true, List.not_mem_nil, false_iff]
      rintro ⟨k, _, _, hall, hk1, _⟩
      cases k with
      | zero => simp at hk1; exact hon hk1
      | succ k =>
        have := (hall 0 (by omega)).1
        simp at this
        exact hon this

theorem slideDir_mem (b : Board) (row col : Int) (w : Bool) (d : Int × Int)
    (hd : d ∈ kBishopDirs ++ kRookDirs) (hs : onBoard row col = true) (m : Move) :
    m ∈ slideDir b row col w d ↔
      ∃ k : Nat, 1 ≤ k ∧ m = ⟨row, col, row + k * d.1, col + k * d.2, NUL⟩ ∧
        onBoard (row + k * d.1) (col + k * d.2) = true ∧
        (∀ j : Nat, 1 ≤ j → j < k → isEmpty (b.get (row + j * d.1) (col + j * d.2)) = true) ∧
        (isEmpty (b.get (row + k * d.1) (col + k * d.2)) = true ∨
          isOpponentPiece (b.get (row + k * d.1) (col + k * d.2)) w = true) := by
  have shift : ∀ k : Nat, row + d.1 + (k : Int) * d.1 = row + ((k + 1 : Nat) : Int) * d.1 ∧
      col + d.2 + (k : Int) * d.2 = col + ((k + 1 : Nat) : Int) * d.2 := by
    intro k; push_cast; constructor <;> ring
  have conv : ∀ k j : Nat, j ≤ k → onBoard (row + k * d.1) (col + k * d.2) = true →
      onBoard (row + j * d.1) (col + j * d.2) = true ∧ k < 8 := by
    intro k j hjk hk
    rw [onBoard_iff] at hk hs ⊢
    simp only [kBishopDirs, kRookDirs, List.cons_append, List.nil_append, List.mem_cons,
      List.mem_singleton, List.not_mem_nil, or_false] at hd
    rcases hd with rfl | rfl | rfl | rfl | rfl | rfl | rfl | rfl <;> simp only [] at hk ⊢ <;> omega
  unfold slideDir
  rw [mem_slideLoop]
  simp only [shift]
  constructor
  · rintro ⟨k, _, hm, hall, hk1, hk2⟩
    refine ⟨k + 1, by omega, hm, hk1, ?_, hk2⟩
    intro j hj1 hjk
    obtain ⟨j, rfl⟩ : ∃ i, j = i + 1 := ⟨j - 1, by omega⟩
    exact (hall j (by omega)).2
  · rintro ⟨k, hk0, hm, hk1, hall, hk2⟩
    obtain ⟨k, rfl⟩ : ∃ i, k = i + 1 := ⟨k - 1, by omega⟩
    refine ⟨k, ?_, hm, ?_, hk1, hk2⟩
    · have := (conv (k + 1) 0 (by omega) hk1).2
      simp only [BOARD_SIZE]
      omega
    · intro j hj
      exact ⟨(conv (k + 1) (j + 1) (by omega) hk1).1, hall (j + 1) (by omega) (by omega)⟩

theorem not_isEmpty_of_white {p : Char} (h : isWhitePiece p = true) : isEmpty p = false := by
  by_contra hc
  have hp : p = '.' := by simpa [isEmpty] using hc
  rw [hp] at h
  exact absurd h (by decide)

theorem not_isEmpty_of_black {p : Char} (h : isBlackPiece p = true) : isEmpty p = false := by
  by_contra hc
  have hp : p = '.' := by simpa [isEmpty] using hc
  rw [hp] at h
  exact absurd h (by decide)

theorem squareMoves_owned (b : Board) (side : Color) (row col : Int)
    (hown : ownedBy b side row col) :
    squareMoves b side row col [] =
      if tolower (b.get row col) == 'p' then
        addPawnMoves b row col (isWhitePiece (b.get row col)) []
      else if tolower (b.get row col) == 'n' then
        addKnightMoves b row col (isWhitePiece (b.get row col)) []
      else if tolower (b.get row col) == 'b' then
        addSlidingMoves b row col (isWhitePiece (b.get row col)) kBishopDirs []
      else if tolower (b.get row col) == 'r' then
        addSlidingMoves b row col (isWhitePiece (b.get row col)) kRookDirs []
      else if tolower (b.get row col) == 'q' then
        addSlidingMoves b row col (isWhitePiece (b.get row col)) (kBishopDirs ++ kRookDirs) []
      else if tolower (b.get row col) == 'k' then
        addKingMoves b row col (isWhitePiece (b.get row col)) []
      else [] := by
  have hne : isEmpty (b.get row col) = false := by
    rcases hown with ⟨_, h⟩ | ⟨_, h⟩
    · exact not_isEmpty_of_white h
    · exact not_isEmpty_of_black h
  have hskip : ((side == Color.WHITE && !isWhitePiece (b.get row col)) ||
      (side == Color.BLACK && !isBlackPiece (b.get row col))) = false := by
    rcases hown with ⟨rfl, h⟩ | ⟨rfl, h⟩ <;> simp [h]
  simp only [squareMoves, hne, hskip, Bool.false_eq_true, if_false]

theorem squareMoves_sliding (b : Board) (side : Color) (row col : Int)
    (hown : ownedBy b side row col) (hne : slidingDirs (tolower (b.get row col)) ≠ []) :
    squareMoves b side row col [] =
      (slidingDirs (tolower (b.get row col))).flatMap
        (slideDir b row col (isWhitePiece (b.get row col))) := by
  rw [squareMoves_owned b side row col hown]
  generalize tolower (b.get row col) = pl at hne ⊢
  unfold slidingDirs at hne ⊢
  split_ifs at hne ⊢ with h1 h2 h3 h4 h5 h6 h7 h8 <;>
    first
    | rfl
    | exact absurd rfl hne
    | simp only [addSlidingMoves_acc, List.nil_append]
    | (simp only [beq_iff_eq] at *; subst_vars; contradiction)

theorem slideLoop_extra (b : Board) (row col : Int) (w : Bool) (dr dc : Int) (fuel extra : Nat)
    (nr nc : Int) (out : List Move)
    (hoff : ∀ j : Nat, fuel ≤ j → onBoard (nr + j * dr) (nc + j * dc) = false) :
    slideLoop b row col w dr dc (fuel + extra) nr nc out =
      slideLoop b row col w dr dc fuel nr nc out := by
  induction fuel generalizing nr nc out with
  | zero =>
    have h0 : onBoard nr nc = false := by simpa using hoff 0 (by omega)
    cases extra with
    | zero => rfl
    | succ e => simp [slideLoop, h0]
  | succ n ih =>
    have e : n + 1 + extra = (n + extra) + 1 := by omega
    rw [e]
    simp only [slideLoop]
    have hoff' : ∀ j : Nat, n ≤ j → onBoard (nr + dr + j * dr) (nc + dc + j * dc) = false := by
      intro j hj
      have := hoff (j + 1) (by omega)
      have e1 : nr + ((j + 1 : Nat) : Int) * dr = nr + dr + (j : Int) * dr := by push_cast; ring
      have e2 : nc + ((j + 1 : Nat) : Int) * dc = nc + dc + (j : Int) * dc := by push_cast; ring
      rw [e1, e2] at this
      exact this
    rw [ih _ _ _ hoff']

/-- The inner loop of `Board::addSlidingMoves` never needs more than `BOARD_SIZE`
iterations: extra fuel does not change the result. -/
theorem slideLoop_fuel (b : Board) (row col : Int) (w : Bool) (d : Int × Int)
    (hd : d ∈ kBishopDirs ++ kRookDirs) (hs : onBoard row col = true) (extra : Nat)
    (out : List Move) :
    slideLoop b row col w d.1 d.2 (BOARD_SIZE + extra) (row + d.1) (col + d.2) out =
      slideLoop b row col w d.1 d.2 BOARD_SIZE (row + d.1) (col + d.2) out := by
  apply slideLoop_extra
  intro j hj
  rw [onBoard_iff] at hs
  rw [← Bool.not_eq_true, onBoard_iff]
  simp only [BOARD_SIZE] at hj
  simp only [kBishopDirs, kRookDirs, List.cons_append, List.nil_append, List.mem_cons,
    List.mem_singleton, List.not_mem_nil, or_false] at hd
  rcases hd with rfl | rfl | rfl | rfl | rfl | rfl | rfl | rfl <;> simp only [] <;> omega

theorem slidingDirs_subset (pl : Char) (d : Int × Int) (hd : d ∈ slidingDirs pl) :
    d ∈ kBishopDirs ++ kRookDirs := by
  unfold slidingDirs at hd
  split_ifs at hd
  · exact List.mem_append_left _ hd
  · exact List.mem_append_right _ hd
  · exact hd
  · simp at hd

/-- C10: the moves of a sliding piece are, direction by direction, the empty squares
up to the first occupied square of the ray, plus that square when it holds an
opponent piece; nothing beyond it. -/
theorem sliding_ray_destinations (b : Board) (side : Color) (row col : Int)
    (hs : onBoard row col = true) (hown : ownedBy b side row col) (d : Int × Int)
    (hd : d ∈ slidingDirs (tolower (b.get row col))) (m : Move) :
    squareMoves b side row col [] =
      (slidingDirs (tolower (b.get row col))).flatMap
        (slideDir b row col (isWhitePiece (b.get row col))) ∧
    (m ∈ slideDir b row col (isWhitePiece (b.get row col)) d ↔
      ∃ k : Nat, 1 ≤ k ∧ m = ⟨row, col, row + k * d.1, col + k * d.2, NUL⟩ ∧
        onBoard (row + k * d.1) (col + k * d.2) = true ∧
        (∀ j : Nat, 1 ≤ j → j < k → isEmpty (b.get (row + j * d.1) (col + j * d.2)) = true) ∧
        (isEmpty (b.get (row + k * d.1) (col + k * d.2)) = true ∨
          isOpponentPiece (b.get (row + k * d.1) (col + k * d.2))
            (isWhitePiece (b.get row col)) = true)) :=
  ⟨squareMoves_sliding b side row col hown (List.ne_nil_of_mem hd),
    slideDir_mem b row col _ d (slidingDirs_subset _ d hd) hs m⟩

theorem sliding_ray_destinations_witness :
    onBoard 7 0 = true ∧ ownedBy rookBoard Color.WHITE 7 0 ∧
    ((-1, 0) : Int × Int) ∈ slidingDirs (tolower (rookBoard.get 7 0)) ∧
    (squareMoves rookBoard Color.WHITE 7 0 [] =
      (slidingDirs (tolower (rookBoard.get 7 0))).flatMap
        (slideDir rookBoard 7 0 (isWhitePiece (rookBoard.get 7 0))) ∧
    ((⟨7, 0, 5, 0, NUL⟩ : Move) ∈
        slideDir rookBoard 7 0 (isWhitePiece (rookBoard.get 7 0)) (-1, 0) ↔
      ∃ k : Nat, 1 ≤ k ∧
        (⟨7, 0, 5, 0, NUL⟩ : Move) =
          ⟨7, 0, 7 + k * ((-1, 0) : Int × Int).1, 0 + k * ((-1, 0) : Int × Int).2, NUL⟩ ∧
        onBoard (7 + k * ((-1, 0) : Int × Int).1) (0 + k * ((-1, 0) : Int × Int).2) = true ∧
        (∀ j : Nat, 1 ≤ j → j < k →
          isEmpty (rookBoard.get (7 + j * ((-1, 0) : Int × Int).1)
            (0 + j * ((-1, 0) : Int × Int).2)) = true) ∧
        (isEmpty (rookBoard.get (7 + k * ((-1, 0) : Int × Int).1)
            (0 + k * ((-1, 0) : Int × Int).2)) = true ∨
          isOpponentPiece (rookBoard.get (7 + k * ((-1, 0) : Int × Int).1)
            (0 + k * ((-1, 0) : Int × Int).2))
            (isWhitePiece (rookBoard.get 7 0)) = true))) :=
  ⟨by decide, Or.inl ⟨rfl, by decide!⟩, by decide!,
    sliding_ray_destinations rookBoard Color.WHITE 7 0 (by decide) (Or.inl ⟨rfl, by decide!⟩)
      (-1, 0) (by decide!) ⟨7, 0, 5, 0, NUL⟩⟩

/-! ## Check detection -/

theorem findKing_some (b : Board) (col : Color) (r c : Int)
    (h : findKing b col = some (r, c)) :
    onBoard r c = true ∧ b.get r c = (if col == Color.WHITE then 'K' else 'k') := by
  unfold findKing at h
  simp only [] at h
  obtain ⟨row, hrow, h1⟩ := List.exists_of_findSome?_eq_some h
  obtain ⟨cc, hcc, h2⟩ := List.exists_of_findSome?_eq_some h1
  simp only [List.mem_range, BOARD_SIZE] at hrow hcc
  have h3 : b.get row cc = (if col == Color.WHITE then 'K' else 'k') ∧ (row : Int) = r ∧
      (cc : Int) = c := by
    by_cases hget : (b.get row cc == (if col == Color.WHITE then 'K' else 'k')) = true
    · rw [if_pos hget] at h2
      simp only [Option.some.injEq, Prod.mk.injEq] at h2
      exact ⟨by simpa using hget, h2⟩
    · rw [if_neg hget] at h2
      simp at h2
  obtain ⟨hget, rfl, rfl⟩ := h3
  exact ⟨by rw [onBoard_iff]; omega, hget⟩

theorem findKing_ne_none (b : Board) (col : Color) (r c : Int) (hon : onBoard r c = true)
    (h : b.get r c = (if col == Color.WHITE then 'K' else 'k')) :
    findKing b col ≠ none := by
  rw [onBoard_iff] at hon
  intro hnone
  unfold findKing at hnone
  simp only [] at hnone
  rw [List.findSome?_eq_none_iff] at hnone
  have h1 := hnone r.toNat (by simp [BOARD_SIZE]; omega)
  rw [List.findSome?_eq_none_iff] at h1
  have h2 := h1 c.toNat (by simp [BOARD_SIZE]; omega)
  rw [Int.toNat_of_nonneg hon.1, Int.toNat_of_nonneg hon.2.2.1] at h2
  simp [h] at h2

theorem attackRay_hit (b : Board) (a1 a2 : Char) (dr dc : Int) (n : Nat) (fuel : Nat)
    (sr sc : Int) (hn : n < fuel)
    (hempty : ∀ j : Nat, j < n → onBoard (sr + j * dr) (sc + j * dc) = true ∧
      isEmpty (b.get (sr + j * dr) (sc + j * dc)) = true)
    (hon : onBoard (sr + n * dr) (sc + n * dc) = true)
    (hit : b.get (sr + n * dr) (sc + n * dc) = a1 ∨ b.get (sr + n * dr) (sc + n * dc) = a2)
    (hne : isEmpty (b.get (sr + n * dr) (sc + n * dc)) = false) :
    attackRay b a1 a2 dr dc fuel sr sc = true := by
  induction n generalizing fuel sr sc with
  | zero =>
    obtain ⟨f, rfl⟩ : ∃ f, fuel = f + 1 := ⟨fuel - 1, by omega⟩
    simp only [Nat.cast_zero, zero_mul, add_zero] at hon hit hne
    simp only [attackRay, hon, hne, if_true, Bool.not_false]
    rcases hit with h | h <;> simp [h]
  | succ n ih =>
    obtain ⟨f, rfl⟩ : ∃ f, fuel = f + 1 := ⟨fuel - 1, by omega⟩
    have h0 := hempty 0 (by omega)
    simp only [Nat.cast_zero, zero_mul, add_zero] at h0
    simp only [attackRay, h0.1, h0.2, if_true, Bool.not_true, Bool.false_eq_true, if_false]
    have shift : ∀ k : Nat, sr + ((k + 1 : Nat) : Int) * dr = sr + dr + (k : Int) * dr ∧
        sc + ((k + 1 : Nat) : Int) * dc = sc + dc + (k : Int) * dc := by
      intro k; push_cast; constructor <;> ring
    apply ih f (sr + dr) (sc + dc) (by omega)
    · intro j hj
      rw [← (shift j).1, ← (shift j).2]
      exact hempty (j + 1) (by omega)
    · rw [← (shift n).1, ← (shift n).2]; exact hon
    · rw [← (shift n).1, ← (shift n).2]; exact hit
    · rw [← (shift n).1, ← (shift n).2]; exact hne

theorem attackRay_extra (b : Board) (a1 a2 : Char) (dr dc : Int) (fuel extra : Nat)
    (sr sc : Int)
    (hoff : ∀ j : Nat, fuel ≤ j → onBoard (sr + j * dr) (sc + j * dc) = false) :
    attackRay b a1 a2 dr dc (fuel + extra) sr sc = attackRay b a1 a2 dr dc fuel sr sc := by
  induction fuel generalizing sr sc with
  | zero =>
    have h0 : onBoard sr sc = false := by simpa using hoff 0 (by omega)
    cases extra with
    | zero => rfl
    | succ e => simp [attackRay, h0]
  | succ n ih =>
    have e : n + 1 + extra = (n + extra) + 1 := by omega
    rw [e]
    simp only [attackRay]
    have hoff' : ∀ j : Nat, n ≤ j → onBoard (sr + dr + j * dr) (sc + dc + j * dc) = false := by
      intro j hj
      have := hoff (j + 1) (by omega)
      have e1 : sr + ((j + 1 : Nat) : Int) * dr = sr + dr + (j : Int) * dr := by push_cast; ring
      have e2 : sc + ((j + 1 : Nat) : Int) * dc = sc + dc + (j : Int) * dc := by push_cast; ring
      rw [e1, e2] at this
      exact this
    rw [ih _ _ hoff']

/-- The ray walks of `Board::isAttacked` never need more than `BOARD_SIZE` iterations,
from whatever square they start: extra fuel does not change the result. -/
theorem attackRay_fuel (b : Board) (a1 a2 : Char) (d : Int × Int)
    (hd : d ∈ kBishopDirs ++ kRookDirs) (extra : Nat) (sr sc : Int) :
    attackRay b a1 a2 d.1 d.2 (BOARD_SIZE + extra) sr sc =
      attackRay b a1 a2 d.1 d.2 BOARD_SIZE sr sc := by
  by_cases hs : onBoard sr sc = true
  · apply attackRay_extra
    intro j hj
    rw [onBoard_iff] at hs
    rw [← Bool.not_eq_true, onBoard_iff]
    simp only [BOARD_SIZE] at hj
    simp only [kBishopDirs, kRookDirs, List.cons_append, List.nil_append, List.mem_cons,
      List.mem_singleton, List.not_mem_nil, or_false] at hd
    rcases hd with rfl | rfl | rfl | rfl | rfl | rfl | rfl | rfl <;> simp only [] <;> omega
  · have e : BOARD_SIZE + extra = (7 + extra) + 1 := by simp only [BOARD_SIZE]; omega
    have e' : BOARD_SIZE = 7 + 1 := rfl
    rw [e]
    conv_rhs => rw [e']
    simp [attackRay, hs]

theorem onBoard_ray_conv (row col : Int) (d : Int × Int) (hd : d ∈ kBishopDirs ++ kRookDirs)
    (hs : onBoard row col = true) (k j : Nat) (hjk : j ≤ k)
    (hk : onBoard (row + k * d.1) (col + k * d.2) = true) :
    onBoard (row + j * d.1) (col + j * d.2) = true ∧ k < 8 := by
  rw [onBoard_iff] at hk hs ⊢
  simp only [kBishopDirs, kRookDirs, List.cons_append, List.nil_append, List.mem_cons,
    List.mem_singleton, List.not_mem_nil, or_false] at hd
  rcases hd with rfl | rfl | rfl | rfl | rfl | rfl | rfl | rfl <;> simp only [] at hk ⊢ <;> omega

theorem rookAttack_black_of_ray (b : Board) (kr kc : Int) (d : Int × Int) (hd : d ∈ kRookDirs)
    (n : Nat) (hK : onBoard kr kc = true)
    (hempty : ∀ j : Nat, 1 ≤ j → j ≤ n →
      isEmpty (b.get (kr + j * d.1) (kc + j * d.2)) = true)
    (hon : onBoard (kr + ((n + 1 : Nat) : Int) * d.1) (kc + ((n + 1 : Nat) : Int) * d.2) = true)
    (hit : b.get (kr + ((n + 1 : Nat) : Int) * d.1) (kc + ((n + 1 : Nat) : Int) * d.2) = 'r' ∨
      b.get (kr + ((n + 1 : Nat) : Int) * d.1) (kc + ((n + 1 : Nat) : Int) * d.2) = 'q') :
    rookAttack b kr kc Color.BLACK = true := by
  have hd' : d ∈ kBishopDirs ++ kRookDirs := List.mem_append_right _ hd
  have shift : ∀ k : Nat, kr + d.1 + (k : Int) * d.1 = kr + ((k + 1 : Nat) : Int) * d.1 ∧
      kc + d.2 + (k : Int) * d.2 = kc + ((k + 1 : Nat) : Int) * d.2 := by
    intro k; push_cast; constructor <;> ring
  unfold rookAttack
  rw [List.any_eq_true]
  refine ⟨d, hd, ?_⟩
  have hc : (Color.BLACK == Color.WHITE) = false := by decide
  simp only [hc, Bool.false_eq_true, if_false]
  apply attackRay_hit b 'r' 'q' d.1 d.2 n BOARD_SIZE
  · have := (onBoard_ray_conv kr kc d hd' hK (n + 1) 0 (by omega) hon).2
    simp only [BOARD_SIZE]; omega
  · intro j hj
    rw [(shift j).1, (shift j).2]
    exact ⟨(onBoard_ray_conv kr kc d hd' hK (n + 1) (j + 1) (by omega) hon).1,
      hempty (j + 1) (by omega) (by omega)⟩
  · rw [(shift n).1, (shift n).2]; exact hon
  · rw [(shift n).1, (shift n).2]; exact hit
  · rw [(shift n).1, (shift n).2]
    rcases hit with h | h <;> rw [h] <;> decide

theorem isAttacked_of_rookAttack (b : Board) (r c : Int) (byColor : Color)
    (h : rookAttack b r c byColor = true) : isAttacked b r c byColor = true := by
  unfold isAttacked
  split_ifs <;> simp_all

theorem isInCheck_white_of_line (b : Board) (kr kc ar ac : Int)
    (hk : onBoard kr kc = true) (hK : b.get kr kc = 'K')
    (huniq : ∀ r c : Int, onBoard r c = true → b.get r c = 'K' → r = kr ∧ c = kc)
    (ha : onBoard ar ac = true) (hA : b.get ar ac = 'r' ∨ b.get ar ac = 'q')
    (hline : (kr = ar ∧ kc ≠ ac) ∨ (kc = ac ∧ kr ≠ ar))
    (hclear : ∀ r c : Int, strictlyBetween kr kc ar ac r c → isEmpty (b.get r c) = true) :
    isInCheck b Color.WHITE = true := by
  have hfk : findKing b Color.WHITE = some (kr, kc) := by
    cases hf : findKing b Color.WHITE with
    | none => exact absurd hf (findKing_ne_none b Color.WHITE kr kc hk (by simpa using hK))
    | some p =>
      obtain ⟨r, c⟩ := p
      have h := findKing_some b Color.WHITE r c hf
      obtain ⟨rfl, rfl⟩ := huniq r c h.1 (by simpa using h.2)
      rfl
  unfold isInCheck
  rw [hfk]
  simp only []
  apply isAttacked_of_rookAttack
  have hk' := (onBoard_iff kr kc).1 hk
  have ha' := (onBoard_iff ar ac).1 ha
  have key : ∀ d : Int × Int, d ∈ kRookDirs → ∀ n : Nat,
      ar = kr + ((n + 1 : Nat) : Int) * d.1 → ac = kc + ((n + 1 : Nat) : Int) * d.2 →
      (∀ j : Nat, 1 ≤ j → j ≤ n → strictlyBetween kr kc ar ac (kr + j * d.1) (kc + j * d.2)) →
      rookAttack b kr kc Color.BLACK = true := by
    intro d hd n h1 h2 hbetween
    refine rookAttack_black_of_ray b kr kc d hd n hk ?_ ?_ ?_
    · intro j hj1 hjn
      exact hclear _ _ (hbetween j hj1 hjn)
    · rw [← h1, ← h2]; exact ha
    · rw [← h1, ← h2]; exact hA
  rcases hline with ⟨hr, hc⟩ | ⟨hc, hr⟩
  · rcases lt_or_gt_of_ne hc with hlt | hgt
    · refine key (0, 1) (by decide) (ac - kc - 1).toNat ?_ ?_ ?_
      · simp only []; omega
      · simp only []; push_cast; omega
      · intro j hj1 hjn
        left
        simp only []
        refine ⟨hr, by omega, Or.inl ⟨by omega, by omega⟩⟩
    · refine key (0, -1) (by decide) (kc - ac - 1).toNat ?_ ?_ ?_
      · simp only []; omega
      · simp only []; push_cast; omega
      · intro j hj1 hjn
        left
        simp only []
        refine ⟨hr, by omega, Or.inr ⟨by omega, by omega⟩⟩
  · rcases lt_or_gt_of_ne hr with hlt | hgt
    · refine key (1, 0) (by decide) (ar - kr - 1).toNat ?_ ?_ ?_
      · simp only []; push_cast; omega
      · simp only []; omega
      · intro j hj1 hjn
        right
        simp only []
        refine ⟨hc, by omega, Or.inl ⟨by omega, by omega⟩⟩
    · refine key (-1, 0) (by decide) (kr - ar - 1).toNat ?_ ?_ ?_
      · simp only []; push_cast; omega
      · simp only []; omega
      · intro j hj1 hjn
        right
        simp only []
        refine ⟨hc, by omega, Or.inr ⟨by omega, by omega⟩⟩

/-! ## Pinned pieces -/

/-- C9: a white piece that alone shields the white king from a black rook or queen on
a row or column cannot leave that line: such pseudo-legal moves are filtered out. -/
theorem pinned_piece_moves_filtered (b : Board) (kr kc ar ac xr xc : Int) (m : Move)
    (hk : onBoard kr kc = true) (hK : b.get kr kc = 'K')
    (huniq : ∀ r c : Int, onBoard r c = true → b.get r c = 'K' → r = kr ∧ c = kc)
    (ha : onBoard ar ac = true) (hA : b.get ar ac = 'r' ∨ b.get ar ac = 'q')
    (hx : strictlyBetween kr kc ar ac xr xc) (hX : isWhitePiece (b.get xr xc) = true)
    (hclear : ∀ r c : Int, strictlyBetween kr kc ar ac r c → ¬(r = xr ∧ c = xc) →
      isEmpty (b.get r c) = true)
    (hm : m ∈ pseudoMoves b Color.WHITE) (hfrom : m.from_r = xr ∧ m.from_c = xc)
    (hoff : (kr = ar → m.to_r ≠ kr) ∧ (kc = ac → m.to_c ≠ kc)) :
    m ∈ pseudoMoves b Color.WHITE ∧ m ∉ generateMoves b Color.WHITE := by
  refine ⟨hm, ?_⟩
  have hk' := (onBoard_iff kr kc).1 hk
  have ha' := (onBoard_iff ar ac).1 ha
  have hline : (kr = ar ∧ kc ≠ ac) ∨ (kc = ac ∧ kr ≠ ar) := by
    unfold strictlyBetween at hx
    rcases hx with ⟨h1, _, h2⟩ | ⟨h1, _, h2⟩
    · left; exact ⟨h1, by omega⟩
    · right; exact ⟨h1, by omega⟩
  have hbon : ∀ r c : Int, strictlyBetween kr kc ar ac r c → onBoard r c = true := by
    intro r c h
    unfold strictlyBetween at h
    rw [onBoard_iff]
    omega
  have hbto : ∀ r c : Int, strictlyBetween kr kc ar ac r c → ¬(r = m.to_r ∧ c = m.to_c) := by
    intro r c h
    unfold strictlyBetween at h
    rcases h with ⟨h1, h2, _⟩ | ⟨h1, h2, _⟩
    · have := hoff.1 h1; omega
    · have := hoff.2 h1; omega
  have hkto : ¬(kr = m.to_r ∧ kc = m.to_c) := by
    rcases hline with ⟨h1, _⟩ | ⟨h1, _⟩
    · have := hoff.1 h1; omega
    · have := hoff.2 h1; omega
  have hato : ¬(ar = m.to_r ∧ ac = m.to_c) := by
    rcases hline with ⟨h1, _⟩ | ⟨h1, _⟩
    · have := hoff.1 h1; omega
    · have := hoff.2 h1; omega
  have hkx : ¬(kr = xr ∧ kc = xc) := by
    unfold strictlyBetween at hx; omega
  have hax : ¬(ar = xr ∧ ac = xc) := by
    unfold strictlyBetween at hx; omega
  have hXK : b.get xr xc ≠ 'K' := by
    intro h
    have := huniq xr xc (hbon xr xc hx) h
    exact hkx ⟨this.1.symm, this.2.symm⟩
  have hget : ∀ r c : Int, onBoard r c = true → ¬(r = m.to_r ∧ c = m.to_c) →
      (makeMove b m).get r c = if r = xr ∧ c = xc then '.' else b.get r c := by
    intro r c hon hto
    rw [makeMove_get b m r c hon, hfrom.1, hfrom.2]
    simp [hto]
  have hcheck : isInCheck (makeMove b m) Color.WHITE = true := by
    refine isInCheck_white_of_line (makeMove b m) kr kc ar ac hk ?_ ?_ ha ?_ hline ?_
    · rw [hget kr kc hk hkto, if_neg hkx]; exact hK
    · intro r c hon h
      rw [makeMove_get b m r c hon, hfrom.1, hfrom.2] at h
      split_ifs at h <;>
        first
        | exact absurd h (by decide)
        | exact absurd h hXK
        | exact huniq r c hon h
    · rw [hget ar ac ha hato, if_neg hax]; exact hA
    · intro r c hb
      rw [hget r c (hbon r c hb) (hbto r c hb)]
      by_cases h : r = xr ∧ c = xc
      · rw [if_pos h]; decide
      · rw [if_neg h]; exact hclear r c hb h
  rw [generateMoves_eq_filter, List.mem_filter]
  simp [hcheck]

theorem forall_onBoard (P : Int → Int → Prop)
    (h : ∀ i : Nat, i < 8 → ∀ j : Nat, j < 8 → P i j) :
    ∀ r c : Int, onBoard r c = true → P r c := by
  intro r c hon
  rw [onBoard_iff] at hon
  have := h r.toNat (by omega) c.toNat (by omega)
  rwa [Int.toNat_of_nonneg hon.1, Int.toNat_of_nonneg hon.2.2.1] at this

theorem pinBoard_king_unique :
    ∀ r c : Int, onBoard r c = true → pinBoard.get r c = 'K' → r = 7 ∧ c = 4 :=
  forall_onBoard _ (by decide!)

theorem pinBoard_clear : ∀ r c : Int, strictlyBetween 7 4 3 4 r c → ¬(r = 6 ∧ c = 4) →
    isEmpty (pinBoard.get r c) = true := by
  intro r c h hne
  unfold strictlyBetween at h
  have hc : c = 4 := by omega
  have h1 : 3 < r := by omega
  have h2 : r < 6 := by omega
  subst hc
  interval_cases r <;> decide!

theorem pinned_piece_moves_filtered_witness :
    (onBoard 7 4 = true ∧ pinBoard.get 7 4 = 'K' ∧
      (∀ r c : Int, onBoard r c = true → pinBoard.get r c = 'K' → r = 7 ∧ c = 4) ∧
      onBoard 3 4 = true ∧ (pinBoard.get 3 4 = 'r' ∨ pinBoard.get 3 4 = 'q') ∧
      strictlyBetween 7 4 3 4 6 4 ∧ isWhitePiece (pinBoard.get 6 4) = true ∧
      (⟨6, 4, 5, 3, NUL⟩ : Move) ∈ pseudoMoves pinBoard Color.WHITE) ∧
    ((⟨6, 4, 5, 3, NUL⟩ : Move) ∈ pseudoMoves pinBoard Color.WHITE ∧
      (⟨6, 4, 5, 3, NUL⟩ : Move) ∉ generateMoves pinBoard Color.WHITE) :=
  ⟨⟨by decide, by decide!, pinBoard_king_unique, by decide, Or.inr (by decide!),
      Or.inr ⟨rfl, rfl, Or.inr ⟨by decide, by decide⟩⟩, by decide!, by decide!⟩,
    pinned_piece_moves_filtered pinBoard 7 4 3 4 6 4 ⟨6, 4, 5, 3, NUL⟩ (by decide) (by decide!)
      pinBoard_king_unique (by decide) (Or.inr (by decide!))
      (Or.inr ⟨rfl, rfl, Or.inr ⟨by decide, by decide⟩⟩) (by decide!) pinBoard_clear
      (by decide!) ⟨rfl, rfl⟩ ⟨fun h => absurd h (by decide), fun _ => by decide⟩⟩

/-! ## Divergences between the code and its specification -/

/-- C4: in a position reached by legal play the white pawn on e6 has the pseudo-legal
capture e6xf7 onto the black king, a black piece, yet isAttacked(f7, WHITE) is false. -/
theorem isAttacked_misses_pawn_capture :
    (playInputs Board.new pawnCheckInputs).map (fun b =>
      (isBlackPiece (b.get 1 5), decide ((⟨2, 4, 1, 5, NUL⟩ : Move) ∈ pseudoMoves b Color.WHITE),
        isAttacked b 1 5 Color.WHITE)) = some (true, true, false) := by
  decide!

/-- C5: with r = 1, c = 5 a white pawn stands on (r+1, c-1) = (2, 4), yet
isAttacked(1, 5, WHITE) is false; the black king on f7 is not reported in check. -/
theorem isAttacked_pawn_direction :
    (playInputs Board.new pawnCheckInputs).map (fun b =>
      (b.get 2 4, b.get 1 5, isAttacked b 1 5 Color.WHITE, isInCheck b Color.BLACK)) =
      some ('P', 'k', false, false) := by
  decide!

/-- C6: the typed move b7a8r reaches makeMove with promotion = 'r', and the square a8
then holds a white queen, not a white rook. -/
theorem makeMove_ignores_promotion_kind :
    (playInputs Board.new underPromotionInputs).map (fun b => b.get 0 0) = some 'Q' ∧
    (∀ b : Board, (makeMove b ⟨1, 1, 0, 0, 'r'⟩).get 0 0 =
      if isWhitePiece (b.get 1 1) then 'Q' else 'q') := by
  refine ⟨by decide!, fun b => ?_⟩
  rw [makeMove_get b _ 0 0 (by decide)]
  simp [NUL]

/-! ## Membership in the per-square move lists -/

theorem squareMoves_not_owned (b : Board) (side : Color) (row col : Int)
    (h : ¬ownedBy b side row col) : squareMoves b side row col [] = [] := by
  unfold ownedBy at h
  simp only [squareMoves]
  by_cases he : isEmpty (b.get row col) = true
  · simp [he]
  · simp only [he, Bool.false_eq_true, if_false]
    have hskip : ((side == Color.WHITE && !isWhitePiece (b.get row col)) ||
        (side == Color.BLACK && !isBlackPiece (b.get row col))) = true := by
      cases side <;> simp_all
    simp [hskip]

theorem mem_stepDir (b : Board) (row col : Int) (w : Bool) (d : Int × Int) (m : Move) :
    m ∈ stepDir b row col w d ↔
      m = ⟨row, col, row + d.1, col + d.2, NUL⟩ ∧ onBoard (row + d.1) (col + d.2) = true ∧
        (isEmpty (b.get (row + d.1) (col + d.2)) = true ∨
          isOpponentPiece (b.get (row + d.1) (col + d.2)) w = true) := by
  unfold stepDir
  split_ifs with h
  · simp only [Bool.and_eq_true, Bool.or_eq_true] at h
    simp [h.1, h.2]
  · simp only [Bool.and_eq_true, Bool.or_eq_true] at h
    simp only [List.not_mem_nil, false_iff]
    rintro ⟨_, h1, h2⟩
    exact h ⟨h1, h2⟩

theorem mem_pawnCapture (b : Board) (row col : Int) (w : Bool) (dcol : Int) (m : Move) :
    m ∈ pawnCapture b row col w dcol ↔
      m = ⟨row, col, row + pawnForward w, col + dcol,
        if lastRank w (row + pawnForward w) then 'q' else NUL⟩ ∧
      onBoard (row + pawnForward w) (col + dcol) = true ∧
      isOpponentPiece (b.get (row + pawnForward w) (col + dcol)) w = true := by
  unfold pawnCapture
  by_cases h1 : onBoard (row + pawnForward w) (col + dcol) = true <;>
    by_cases h2 : isOpponentPiece (b.get (row + pawnForward w) (col + dcol)) w = true <;>
    simp [h1, h2]

theorem mem_pawnPushes (b : Board) (row col : Int) (w : Bool) (m : Move) :
    m ∈ pawnPushes b row col w ↔
      (onBoard (row + pawnForward w) col = true ∧
        isEmpty (b.get (row + pawnForward w) col) = true) ∧
      (m = ⟨row, col, row + pawnForward w, col,
          if lastRank w (row + pawnForward w) then 'q' else NUL⟩ ∨
        (m = ⟨row, col, row + 2 * pawnForward w, col, NUL⟩ ∧
          (row == (if w then 6 else 1)) = true ∧
          onBoard (row + 2 * pawnForward w) col = true ∧
          isEmpty (b.get (row + 2 * pawnForward w) col) = true)) := by
  unfold pawnPushes
  generalize onBoard (row + pawnForward w) col = A
  generalize isEmpty (b.get (row + pawnForward w) col) = B
  generalize (row == (if w then 6 else 1)) = C
  generalize onBoard (row + 2 * pawnForward w) col = D
  generalize isEmpty (b.get (row + 2 * pawnForward w) col) = E
  cases A <;> cases B <;> cases C <;> cases D <;> cases E <;> simp

theorem squareMoves_eq_kindMoves (b : Board) (side : Color) (row col : Int)
    (hown : ownedBy b side row col) :
    squareMoves b side row col [] =
      kindMoves b row col (isWhitePiece (b.get row col)) (tolower (b.get row col)) := by
  rw [squareMoves_owned b side row col hown]
  generalize tolower (b.get row col) = pl
  unfold kindMoves slidingDirs
  simp only [addPawnMoves_acc, addKnightMoves_acc, addKingMoves_acc, addSlidingMoves_acc,
    List.nil_append]
  split_ifs with h1 h2 h3 h4 h5 h6 <;>
    first
    | rfl
    | (simp only [beq_iff_eq] at *; subst_vars; contradiction)

theorem pawnForward_ne_zero (w : Bool) : pawnForward w = -1 ∨ pawnForward w = 1 := by
  cases w <;> simp [pawnForward]

theorem stepDir_wf (b : Board) (row col : Int) (w : Bool) (d : Int × Int)
    (hd : d ≠ (0, 0)) (m : Move) (h : m ∈ stepDir b row col w d) :
    wellFormedFrom b row col w m := by
  rw [mem_stepDir] at h
  obtain ⟨rfl, h1, h2⟩ := h
  refine ⟨rfl, rfl, h1, ?_, h2, Or.inl rfl⟩
  simp only []
  intro hc
  apply hd
  ext <;> simp <;> omega

theorem kindMoves_wf (b : Board) (row col : Int) (w : Bool) (pl : Char)
    (hs : onBoard row col = true) (m : Move) (h : m ∈ kindMoves b row col w pl) :
    wellFormedFrom b row col w m := by
  unfold kindMoves at h
  split_ifs at h
  · rw [List.mem_append] at h
    rcases h with h | h
    · rw [mem_pawnPushes] at h
      obtain ⟨⟨h1, h2⟩, rfl | ⟨rfl, _, h4, h5⟩⟩ := h
      · refine ⟨rfl, rfl, h1, ?_, Or.inl h2, ?_⟩
        · simp only []
          rcases pawnForward_ne_zero w with e | e <;> omega
        · simp only []
          split_ifs
          · exact Or.inr rfl
          · exact Or.inl rfl
      · refine ⟨rfl, rfl, h4, ?_, Or.inl h5, Or.inl rfl⟩
        simp only []
        rcases pawnForward_ne_zero w with e | e <;> omega
    · rw [List.mem_flatMap] at h
      obtain ⟨dcol, _, h⟩ := h
      rw [mem_pawnCapture] at h
      obtain ⟨rfl, h1, h2⟩ := h
      refine ⟨rfl, rfl, h1, ?_, Or.inr h2, ?_⟩
      · simp only []
        rcases pawnForward_ne_zero w with e | e <;> omega
      · simp only []
        split_ifs
        · exact Or.inr rfl
        · exact Or.inl rfl
  · rw [List.mem_flatMap] at h
    obtain ⟨d, hd, h⟩ := h
    refine stepDir_wf b row col w d ?_ m h
    rintro rfl
    exact absurd hd (by decide)
  · rw [List.mem_flatMap] at h
    obtain ⟨d, hd, h⟩ := h
    refine stepDir_wf b row col w d ?_ m h
    rintro rfl
    exact absurd hd (by decide)
  · rw [List.mem_flatMap] at h
    obtain ⟨d, hd, h⟩ := h
    have hd' := slidingDirs_subset pl d hd
    rw [slideDir_mem b row col w d hd' hs] at h
    obtain ⟨k, hk, rfl, h1, _, h3⟩ := h
    refine ⟨rfl, rfl, h1, ?_, h3, Or.inl rfl⟩
    simp only [kBishopDirs, kRookDirs, List.cons_append, List.nil_append, List.mem_cons,
      List.mem_singleton, List.not_mem_nil, or_false] at hd'
    rcases hd' with rfl | rfl | rfl | rfl | rfl | rfl | rfl | rfl <;> simp only [] <;> omega

theorem mem_pseudoMoves_kind (b : Board) (side : Color) (m : Move) :
    m ∈ pseudoMoves b side ↔
      ∃ row col : Int, onBoard row col = true ∧ ownedBy b side row col ∧
        m ∈ kindMoves b row col (isWhitePiece (b.get row col)) (tolower (b.get row col)) := by
  rw [mem_pseudoMoves]
  constructor
  · rintro ⟨row, col, hon, h⟩
    by_cases hown : ownedBy b side row col
    · exact ⟨row, col, hon, hown, by rwa [squareMoves_eq_kindMoves b side row col hown] at h⟩
    · rw [squareMoves_not_owned b side row col hown] at h
      simp at h
  · rintro ⟨row, col, hon, hown, h⟩
    exact ⟨row, col, hon, by rwa [squareMoves_eq_kindMoves b side row col hown]⟩

theorem generateMoves_subset (b : Board) (side : Color) (m : Move)
    (h : m ∈ generateMoves b side) : m ∈ pseudoMoves b side := by
  rw [generateMoves_eq_filter] at h
  exact List.mem_of_mem_filter h

/-! ## Facts about the piece letters -/

theorem white_black_disjoint (p : Char) (hw : isWhitePiece p = true) (hb : isBlackPiece p = true) :
    False := by
  simp only [isWhitePiece, isBlackPiece, Bool.and_eq_true, decide_eq_true_eq, ge_iff_le] at hw hb
  exact absurd (le_trans hb.1 hw.2) (by decide)

theorem white_cases (p : Char) (hw : isWhitePiece p = true) :
    ∃ n : Nat, 65 ≤ n ∧ n ≤ 90 ∧ p = Char.ofNat n := by
  simp only [isWhitePiece, Bool.and_eq_true, decide_eq_true_eq, ge_iff_le] at hw
  exact ⟨p.toNat, hw.1, hw.2, (Char.ofNat_toNat p).symm⟩

theorem black_cases (p : Char) (hb : isBlackPiece p = true) :
    ∃ n : Nat, 97 ≤ n ∧ n ≤ 122 ∧ p = Char.ofNat n := by
  simp only [isBlackPiece, Bool.and_eq_true, decide_eq_true_eq, ge_iff_le] at hb
  exact ⟨p.toNat, hb.1, hb.2, (Char.ofNat_toNat p).symm⟩

theorem tolower_white (p : Char) (hw : isWhitePiece p = true) (pl : Char)
    (hpl : isBlackPiece pl = true) : tolower p = pl ↔ p = upperOf pl := by
  obtain ⟨n, h1, h2, rfl⟩ := white_cases p hw
  obtain ⟨k, h3, h4, rfl⟩ := black_cases pl hpl
  interval_cases n <;> interval_cases k <;> decide

theorem tolower_black (p : Char) (hb : isBlackPiece p = true) : tolower p = p := by
  obtain ⟨n, h1, h2, rfl⟩ := black_cases p hb
  interval_cases n <;> decide

/-! ## Shape of the generated moves -/

theorem pseudoMoves_from (b : Board) (side : Color) (m : Move) (h : m ∈ pseudoMoves b side) :
    onBoard m.from_r m.from_c = true ∧ ownedBy b side m.from_r m.from_c ∧
      m ∈ kindMoves b m.from_r m.from_c (isWhitePiece (b.get m.from_r m.from_c))
        (tolower (b.get m.from_r m.from_c)) ∧
      wellFormedFrom b m.from_r m.from_c (isWhitePiece (b.get m.from_r m.from_c)) m := by
  rw [mem_pseudoMoves_kind] at h
  obtain ⟨row, col, hon, hown, hm⟩ := h
  have hwf := kindMoves_wf b row col _ _ hon m hm
  obtain ⟨h1, h2⟩ : m.from_r = row ∧ m.from_c = col := ⟨hwf.1, hwf.2.1⟩
  subst h1 h2
  exact ⟨hon, hown, hm, hwf⟩

theorem ownedBy_white_iff (b : Board) (side : Color) (row col : Int)
    (hown : ownedBy b side row col) : isWhitePiece (b.get row col) = true ↔ side = Color.WHITE := by
  rcases hown with ⟨rfl, h⟩ | ⟨rfl, h⟩
  · simp [h]
  · constructor
    · intro hw; exact (white_black_disjoint _ hw h).elim
    · intro hc; cases hc

theorem isOpponentPiece_iff (t : Char) (w : Bool) :
    isOpponentPiece t w = true ↔
      isEmpty t = false ∧ (if w = true then isBlackPiece t = true else isWhitePiece t = true) := by
  unfold isOpponentPiece
  cases isEmpty t <;> cases w <;> simp

/-- C19: every move returned by generateMoves starts on a square of the board holding a
piece of the mover, ends on a different square of the board, and never lands on a piece
of the mover. -/
theorem generateMoves_well_formed (b : Board) (c : Color) (m : Move)
    (h : m ∈ generateMoves b c) :
    onBoard m.from_r m.from_c = true ∧ onBoard m.to_r m.to_c = true ∧
    ¬(m.from_r = m.to_r ∧ m.from_c = m.to_c) ∧
    ownedBy b c m.from_r m.from_c ∧ ¬ownedBy b c m.to_r m.to_c := by
  obtain ⟨hon, hown, _, hwf⟩ := pseudoMoves_from b c m (generateMoves_subset b c m h)
  obtain ⟨_, _, hto, hne, hcell, _⟩ := hwf
  refine ⟨hon, hto, fun hc => hne ⟨hc.1.symm, hc.2.symm⟩, hown, ?_⟩
  have hw := ownedBy_white_iff b c _ _ hown
  rintro (⟨rfl, ht⟩ | ⟨rfl, ht⟩)
  · have hw' : isWhitePiece (b.get m.from_r m.from_c) = true := hw.2 rfl
    rcases hcell with he | ho
    · rw [not_isEmpty_of_white ht] at he; exact absurd he (by decide)
    · rw [isOpponentPiece_iff, hw'] at ho
      exact white_black_disjoint _ ht (by simpa using ho.2)
  · have hw' : isWhitePiece (b.get m.from_r m.from_c) = false := by
      rw [← Bool.not_eq_true, hw]; decide
    rcases hcell with he | ho
    · rw [not_isEmpty_of_black ht] at he; exact absurd he (by decide)
    · rw [isOpponentPiece_iff, hw'] at ho
      exact white_black_disjoint _ (by simpa using ho.2) ht

theorem generateMoves_well_formed_witness :
    (⟨7, 1, 5, 2, NUL⟩ : Move) ∈ generateMoves Board.new Color.WHITE ∧
    (onBoard 7 1 = true ∧ onBoard 5 2 = true ∧
    ¬((7 : Int) = 5 ∧ (1 : Int) = 2) ∧
    ownedBy Board.new Color.WHITE 7 1 ∧ ¬ownedBy Board.new Color.WHITE 5 2) :=
  ⟨by decide!, generateMoves_well_formed Board.new Color.WHITE ⟨7, 1, 5, 2, NUL⟩ (by decide!)⟩

theorem slideDir_promotion (b : Board) (row col : Int) (w : Bool) (d : Int × Int) (m : Move)
    (h : m ∈ slideDir b row col w d) : m.promotion = NUL := by
  unfold slideDir at h
  rw [mem_slideLoop] at h
  obtain ⟨k, _, rfl, _⟩ := h
  rfl

theorem kindMoves_promotion (b : Board) (row col : Int) (w : Bool) (pl : Char) (m : Move)
    (h : m ∈ kindMoves b row col w pl) :
    (m.promotion = 'q' ↔ pl = 'p' ∧ lastRank w m.to_r = true) := by
  have hq : NUL ≠ 'q' := by decide
  unfold kindMoves at h
  split_ifs at h with h1 h2 h3
  · have hpl : pl = 'p' := by simpa using h1
    rw [List.mem_append] at h
    rcases h with h | h
    · rw [mem_pawnPushes] at h
      obtain ⟨_, rfl | ⟨rfl, h3, _, _⟩⟩ := h
      · simp only [hpl, true_and]
        split_ifs with hl <;> simp [hl, hq]
      · simp only [hpl, true_and]
        simp only [beq_iff_eq] at h3
        subst h3
        cases w <;> simp [lastRank, pawnForward, BOARD_SIZE, hq]
    · rw [List.mem_flatMap] at h
      obtain ⟨dcol, _, h⟩ := h
      rw [mem_pawnCapture] at h
      obtain ⟨rfl, _, _⟩ := h
      simp only [hpl, true_and]
      split_ifs with hl <;> simp [hl, hq]
  · have hpl : pl ≠ 'p' := by simpa using h1
    rw [List.mem_flatMap] at h
    obtain ⟨d, _, h⟩ := h
    rw [mem_stepDir] at h
    obtain ⟨rfl, _, _⟩ := h
    simp [hpl, hq]
  · have hpl : pl ≠ 'p' := by simpa using h1
    rw [List.mem_flatMap] at h
    obtain ⟨d, _, h⟩ := h
    rw [mem_stepDir] at h
    obtain ⟨rfl, _, _⟩ := h
    simp [hpl, hq]
  · have hpl : pl ≠ 'p' := by simpa using h1
    rw [List.mem_flatMap] at h
    obtain ⟨d, _, h⟩ := h
    rw [slideDir_promotion b row col w d m h]
    simp [hpl, hq]

theorem lastRank_iff (b : Board) (c : Color) (row col : Int) (hown : ownedBy b c row col)
    (r : Int) :
    lastRank (isWhitePiece (b.get row col)) r = true ↔
      r = (if c = Color.WHITE then 0 else 7) := by
  have hw := ownedBy_white_iff b c row col hown
  cases c
  · rw [hw.2 rfl]; simp [lastRank]
  · have : isWhitePiece (b.get row col) = false := by
      rw [← Bool.not_eq_true, hw]; decide
    rw [this]; simp [lastRank, BOARD_SIZE]

/-- C11: a generated move carries the promotion letter 'q' exactly when the moved piece
is a pawn and the destination row is the last rank of the mover (row 0 for white, row 7
for black); every other generated move has no promotion set. -/
theorem promotion_iff_pawn_last_rank (b : Board) (c : Color) (m : Move)
    (h : m ∈ pseudoMoves b c ∨ m ∈ generateMoves b c) :
    (m.promotion = 'q' ↔
      tolower (b.get m.from_r m.from_c) = 'p' ∧
        m.to_r = (if c = Color.WHITE then 0 else 7)) ∧
    (m.promotion ≠ 'q' → m.promotion = NUL) := by
  have hp : m ∈ pseudoMoves b c := h.elim id (generateMoves_subset b c m)
  obtain ⟨_, hown, hk, hwf⟩ := pseudoMoves_from b c m hp
  refine ⟨?_, ?_⟩
  · rw [kindMoves_promotion b _ _ _ _ m hk, lastRank_iff b c _ _ hown]
  · intro hne
    rcases hwf.2.2.2.2.2 with h1 | h1
    · exact h1
    · exact absurd h1 hne

theorem promotion_iff_pawn_last_rank_witness :
    ((⟨6, 4, 4, 4, NUL⟩ : Move) ∈ pseudoMoves Board.new Color.WHITE ∨
      (⟨6, 4, 4, 4, NUL⟩ : Move) ∈ generateMoves Board.new Color.WHITE) ∧
    ((NUL = 'q' ↔
      tolower (Board.new.get 6 4) = 'p' ∧
        (4 : Int) = (if Color.WHITE = Color.WHITE then 0 else 7)) ∧
    (NUL ≠ 'q' → NUL = NUL)) :=
  ⟨Or.inl (by decide!),
    promotion_iff_pawn_last_rank Board.new Color.WHITE ⟨6, 4, 4, 4, NUL⟩ (Or.inl (by decide!))⟩

/-- C12: a generated pawn move that changes column lands on a square that holds a piece
of the other colour before the move; no pawn moves diagonally onto an empty square. -/
theorem pawn_diagonal_is_capture (b : Board) (c : Color) (m : Move)
    (h : m ∈ pseudoMoves b c ∨ m ∈ generateMoves b c)
    (hpawn : tolower (b.get m.from_r m.from_c) = 'p') (hcol : m.to_c ≠ m.from_c) :
    isEmpty (b.get m.to_r m.to_c) = false ∧
    (c = Color.WHITE → isBlackPiece (b.get m.to_r m.to_c) = true) ∧
    (c = Color.BLACK → isWhitePiece (b.get m.to_r m.to_c) = true) := by
  have hp : m ∈ pseudoMoves b c := h.elim id (generateMoves_subset b c m)
  obtain ⟨_, hown, hk, _⟩ := pseudoMoves_from b c m hp
  have hw := ownedBy_white_iff b c _ _ hown
  rw [hpawn] at hk
  unfold kindMoves at hk
  rw [if_pos (by decide), List.mem_append] at hk
  have hopp : isOpponentPiece (b.get m.to_r m.to_c)
      (isWhitePiece (b.get m.from_r m.from_c)) = true := by
    rcases hk with hk | hk
    · rw [mem_pawnPushes] at hk
      obtain ⟨_, hm | ⟨hm, _⟩⟩ := hk
      · exact absurd (by rw [hm]) hcol
      · exact absurd (by rw [hm]) hcol
    · rw [List.mem_flatMap] at hk
      obtain ⟨dcol, _, hk⟩ := hk
      rw [mem_pawnCapture] at hk
      obtain ⟨hm, _, ho⟩ := hk
      have e1 : m.to_r = m.from_r + pawnForward (isWhitePiece (b.get m.from_r m.from_c)) := by
        rw [hm]
      have e2 : m.to_c = m.from_c + dcol := by rw [hm]
      rw [e1, e2]; exact ho
  rw [isOpponentPiece_iff] at hopp
  refine ⟨hopp.1, ?_, ?_⟩
  · intro hc
    have := hopp.2
    rw [hw.2 hc] at this
    simpa using this
  · intro hc
    have hf : isWhitePiece (b.get m.from_r m.from_c) = false := by
      rw [← Bool.not_eq_true, hw, hc]; decide
    have := hopp.2
    rw [hf] at this
    simpa using this

theorem pawn_diagonal_is_capture_witness :
    (((⟨4, 4, 3, 3, NUL⟩ : Move) ∈ pseudoMoves captureBoard Color.WHITE ∨
        (⟨4, 4, 3, 3, NUL⟩ : Move) ∈ generateMoves captureBoard Color.WHITE) ∧
      tolower (captureBoard.get 4 4) = 'p' ∧ (3 : Int) ≠ 4) ∧
    (isEmpty (captureBoard.get 3 3) = false ∧
      (Color.WHITE = Color.WHITE → isBlackPiece (captureBoard.get 3 3) = true) ∧
      (Color.WHITE = Color.BLACK → isWhitePiece (captureBoard.get 3 3) = true)) :=
  ⟨⟨Or.inl (by decide!), by decide!, by decide⟩,
    pawn_diagonal_is_capture captureBoard Color.WHITE ⟨4, 4, 3, 3, NUL⟩ (Or.inl (by decide!))
      (by decide!) (by decide)⟩

theorem mem_pseudoMoves_at (b : Board) (c : Color) (row col : Int)
    (hs : onBoard row col = true) (hown : ownedBy b c row col) (m : Move) :
    (m ∈ pseudoMoves b c ∧ m.from_r = row ∧ m.from_c = col) ↔
      m ∈ kindMoves b row col (isWhitePiece (b.get row col)) (tolower (b.get row col)) := by
  constructor
  · rintro ⟨h, rfl, rfl⟩
    exact (pseudoMoves_from b c m h).2.2.1
  · intro h
    have hwf := kindMoves_wf b row col _ _ hs m h
    exact ⟨(mem_pseudoMoves_kind b c m).2 ⟨row, col, hs, hown, h⟩, hwf.1, hwf.2.1⟩

theorem pawn_owned (b : Board) (c : Color) (row col : Int)
    (hpawn : b.get row col = (if c = Color.WHITE then 'P' else 'p')) :
    ownedBy b c row col ∧ tolower (b.get row col) = 'p' ∧
      isWhitePiece (b.get row col) = decide (c = Color.WHITE) := by
  cases c
  · simp only [if_true] at hpawn
    rw [hpawn]
    exact ⟨Or.inl ⟨rfl, by rw [hpawn]; decide⟩, by decide, by decide⟩
  · have hpawn' : b.get row col = 'p' := by simpa using hpawn
    rw [hpawn']
    exact ⟨Or.inr ⟨rfl, by rw [hpawn']; decide⟩, by decide, by decide⟩

/-- C16: a pawn of colour c on (row, col) has a move advancing two rows exactly when it
stands on its starting row and the two squares ahead are empty, and a move one row
straight ahead exactly when the square ahead is on the board and empty. -/
theorem pawn_pushes_iff (b : Board) (c : Color) (row col : Int)
    (hs : onBoard row col = true)
    (hpawn : b.get row col = (if c = Color.WHITE then 'P' else 'p')) :
    ((∃ m ∈ pseudoMoves b c, m.from_r = row ∧ m.from_c = col ∧
        m.to_r = row + 2 * (if c = Color.WHITE then -1 else 1)) ↔
      row = (if c = Color.WHITE then 6 else 1) ∧
        isEmpty (b.get (row + (if c = Color.WHITE then -1 else 1)) col) = true ∧
        isEmpty (b.get (row + 2 * (if c = Color.WHITE then -1 else 1)) col) = true) ∧
    ((∃ m ∈ pseudoMoves b c, m.from_r = row ∧ m.from_c = col ∧
        m.to_r = row + (if c = Color.WHITE then -1 else 1) ∧ m.to_c = col) ↔
      onBoard (row + (if c = Color.WHITE then -1 else 1)) col = true ∧
        isEmpty (b.get (row + (if c = Color.WHITE then -1 else 1)) col) = true) := by
  obtain ⟨hown, hpl, hw⟩ := pawn_owned b c row col hpawn
  have hon := (onBoard_iff row col).1 hs
  have key : ∀ m : Move, (m ∈ pseudoMoves b c ∧ m.from_r = row ∧ m.from_c = col) ↔
      (m ∈ pawnPushes b row col (decide (c = Color.WHITE)) ∨
        ∃ dcol ∈ ([-1, 1] : List Int), m ∈ pawnCapture b row col (decide (c = Color.WHITE)) dcol) := by
    intro m
    rw [mem_pseudoMoves_at b c row col hs hown m, hpl, hw]
    unfold kindMoves
    rw [if_pos (by decide), List.mem_append, List.mem_flatMap]
  have hf : pawnForward (decide (c = Color.WHITE)) = (if c = Color.WHITE then -1 else 1) := by
    cases c <;> simp [pawnForward]
  have hst : ∀ r : Int, (r == (if decide (c = Color.WHITE) = true then 6 else 1)) = true ↔
      r = (if c = Color.WHITE then 6 else 1) := by
    intro r; cases c <;> simp
  have hf' : (if c = Color.WHITE then (-1 : Int) else 1) = -1 ∨
      (if c = Color.WHITE then (-1 : Int) else 1) = 1 := by
    cases c <;> simp
  constructor
  · constructor
    · rintro ⟨m, hm, h1, h2, h3⟩
      rcases (key m).1 ⟨hm, h1, h2⟩ with hp | ⟨dcol, _, hcap⟩
      · rw [mem_pawnPushes, hf, hst] at hp
        obtain ⟨⟨_, he1⟩, hm1 | ⟨_, h6, _, he2⟩⟩ := hp
        · rw [hm1] at h3
          simp only [] at h3
          rcases hf' with e | e <;> rw [e] at h3 <;> omega
        · exact ⟨h6, he1, he2⟩
      · rw [mem_pawnCapture, hf] at hcap
        rw [hcap.1] at h3
        simp only [] at h3
        rcases hf' with e | e <;> rw [e] at h3 <;> omega
    · rintro ⟨h6, he1, he2⟩
      have hmem := (key ⟨row, col, row + 2 * (if c = Color.WHITE then -1 else 1), col, NUL⟩).2
        (Or.inl (by
          rw [mem_pawnPushes, hf, hst]
          refine ⟨⟨?_, he1⟩, Or.inr ⟨rfl, h6, ?_, he2⟩⟩
          · rw [onBoard_iff]; cases c <;> simp at h6 ⊢ <;> omega
          · rw [onBoard_iff]; cases c <;> simp at h6 ⊢ <;> omega))
      exact ⟨_, hmem.1, rfl, rfl, rfl⟩
  · constructor
    · rintro ⟨m, hm, h1, h2, h3, h4⟩
      rcases (key m).1 ⟨hm, h1, h2⟩ with hp | ⟨dcol, hd, hcap⟩
      · rw [mem_pawnPushes, hf] at hp
        exact hp.1
      · rw [mem_pawnCapture, hf] at hcap
        rw [hcap.1] at h4
        simp only [List.mem_cons, List.mem_singleton, List.not_mem_nil, or_false] at hd
        simp only [] at h4
        rcases hd with rfl | rfl <;> omega
    · rintro ⟨h1, h2⟩
      have hmem := (key ⟨row, col, row + (if c = Color.WHITE then -1 else 1), col,
          if lastRank (decide (c = Color.WHITE))
            (row + (if c = Color.WHITE then -1 else 1)) then 'q' else NUL⟩).2
        (Or.inl (by
          rw [mem_pawnPushes, hf]
          exact ⟨⟨h1, h2⟩, Or.inl rfl⟩))
      exact ⟨_, hmem.1, rfl, rfl, rfl, rfl⟩

theorem pawn_pushes_iff_witness :
    (onBoard 6 4 = true ∧
      Board.new.get 6 4 = (if Color.WHITE = Color.WHITE then 'P' else 'p')) ∧
    (((∃ m ∈ pseudoMoves Board.new Color.WHITE, m.from_r = 6 ∧ m.from_c = 4 ∧
        m.to_r = 6 + 2 * (if Color.WHITE = Color.WHITE then -1 else 1)) ↔
      (6 : Int) = (if Color.WHITE = Color.WHITE then 6 else 1) ∧
        isEmpty (Board.new.get (6 + (if Color.WHITE = Color.WHITE then -1 else 1)) 4) = true ∧
        isEmpty (Board.new.get (6 + 2 * (if Color.WHITE = Color.WHITE then -1 else 1)) 4) =
          true) ∧
    ((∃ m ∈ pseudoMoves Board.new Color.WHITE, m.from_r = 6 ∧ m.from_c = 4 ∧
        m.to_r = 6 + (if Color.WHITE = Color.WHITE then -1 else 1) ∧ m.to_c = 4) ↔
      onBoard (6 + (if Color.WHITE = Color.WHITE then -1 else 1)) 4 = true ∧
        isEmpty (Board.new.get (6 + (if Color.WHITE = Color.WHITE then -1 else 1)) 4) =
          true)) :=
  ⟨⟨by decide, by decide!⟩, pawn_pushes_iff Board.new Color.WHITE 6 4 (by decide) (by decide!)⟩

theorem stepDir_dest_sublist (b : Board) (row col : Int) (w : Bool) (dirs : List (Int × Int)) :
    List.Sublist ((dirs.flatMap (stepDir b row col w)).map (fun m => (m.to_r, m.to_c)))
      (dirs.map (fun o => (row + o.1, col + o.2))) := by
  induction dirs with
  | nil => simp
  | cons d ds ih =>
    rw [List.flatMap_cons, List.map_append, List.map_cons]
    have hd : stepDir b row col w d = [⟨row, col, row + d.1, col + d.2, NUL⟩] ∨
        stepDir b row col w d = [] := by
      unfold stepDir
      split_ifs
      · exact Or.inl rfl
      · exact Or.inr rfl
    rcases hd with hd | hd <;> rw [hd]
    · simpa using ih
    · simpa using List.Sublist.cons _ ih

theorem stepDir_dest_nodup (b : Board) (row col : Int) (w : Bool) (dirs : List (Int × Int))
    (hd : dirs.Nodup) :
    ((dirs.flatMap (stepDir b row col w)).map (fun m => (m.to_r, m.to_c))).Nodup := by
  refine List.Nodup.sublist (stepDir_dest_sublist b row col w dirs) ?_
  refine List.Nodup.map ?_ hd
  intro x y hxy
  simp only [Prod.mk.injEq, add_right_inj] at hxy
  exact Prod.ext hxy.1 hxy.2

/-- C17: the moves generated for a knight (respectively a king) are one move to each
square at one of its eight offsets that is on the board and is empty or holds an
opponent piece; no destination occurs twice and there is no other move. -/
theorem knight_king_moves (b : Board) (c : Color) (row col : Int)
    (hs : onBoard row col = true) (hown : ownedBy b c row col) (dirs : List (Int × Int))
    (hkind : (tolower (b.get row col) = 'n' ∧ dirs = kKnightDirs) ∨
      (tolower (b.get row col) = 'k' ∧ dirs = kKingDirs)) :
    (∀ m : Move, m ∈ squareMoves b c row col [] ↔
      ∃ o ∈ dirs, m = ⟨row, col, row + o.1, col + o.2, NUL⟩ ∧
        onBoard (row + o.1) (col + o.2) = true ∧
        (isEmpty (b.get (row + o.1) (col + o.2)) = true ∨
          isOpponentPiece (b.get (row + o.1) (col + o.2))
            (isWhitePiece (b.get row col)) = true)) ∧
    ((squareMoves b c row col []).map (fun m => (m.to_r, m.to_c))).Nodup ∧
    (∀ m : Move, (m ∈ pseudoMoves b c ∧ m.from_r = row ∧ m.from_c = col) ↔
      m ∈ squareMoves b c row col []) := by
  have hsq : squareMoves b c row col [] =
      dirs.flatMap (stepDir b row col (isWhitePiece (b.get row col))) := by
    rw [squareMoves_eq_kindMoves b c row col hown]
    unfold kindMoves
    rcases hkind with ⟨h, rfl⟩ | ⟨h, rfl⟩
    · rw [h, if_neg (by decide), if_pos (by decide)]
    · rw [h, if_neg (by decide), if_neg (by decide), if_pos (by decide)]
  have hnd : dirs.Nodup := by
    rcases hkind with ⟨_, rfl⟩ | ⟨_, rfl⟩ <;> decide
  refine ⟨?_, ?_, ?_⟩
  · intro m
    rw [hsq, List.mem_flatMap]
    constructor
    · rintro ⟨o, ho, hm⟩
      exact ⟨o, ho, (mem_stepDir b row col _ o m).1 hm⟩
    · rintro ⟨o, ho, hm⟩
      exact ⟨o, ho, (mem_stepDir b row col _ o m).2 hm⟩
  · rw [hsq]
    exact stepDir_dest_nodup b row col _ dirs hnd
  · intro m
    rw [mem_pseudoMoves_at b c row col hs hown m, squareMoves_eq_kindMoves b c row col hown]

theorem knight_king_moves_witness :
    (onBoard 7 1 = true ∧ ownedBy Board.new Color.WHITE 7 1 ∧
      ((tolower (Board.new.get 7 1) = 'n' ∧ kKnightDirs = kKnightDirs) ∨
        (tolower (Board.new.get 7 1) = 'k' ∧ kKnightDirs = kKingDirs))) ∧
    ((∀ m : Move, m ∈ squareMoves Board.new Color.WHITE 7 1 [] ↔
      ∃ o ∈ kKnightDirs, m = ⟨7, 1, 7 + o.1, 1 + o.2, NUL⟩ ∧
        onBoard (7 + o.1) (1 + o.2) = true ∧
        (isEmpty (Board.new.get (7 + o.1) (1 + o.2)) = true ∨
          isOpponentPiece (Board.new.get (7 + o.1) (1 + o.2))
            (isWhitePiece (Board.new.get 7 1)) = true)) ∧
    ((squareMoves Board.new Color.WHITE 7 1 []).map (fun m => (m.to_r, m.to_c))).Nodup ∧
    (∀ m : Move, (m ∈ pseudoMoves Board.new Color.WHITE ∧ m.from_r = 7 ∧ m.from_c = 1) ↔
      m ∈ squareMoves Board.new Color.WHITE 7 1 [])) :=
  ⟨⟨by decide, Or.inl ⟨rfl, by decide!⟩, Or.inl ⟨by decide!, rfl⟩⟩,
    knight_king_moves Board.new Color.WHITE 7 1 (by decide) (Or.inl ⟨rfl, by decide!⟩)
      kKnightDirs (Or.inl ⟨by decide!, rfl⟩)⟩

/-! ## Kings -/

/-- C13: on a board without a king of colour col, isInCheck(col) is false. -/
theorem isInCheck_no_king (b : Board) (col : Color)
    (h : ∀ r c : Int, onBoard r c = true → b.get r c ≠ kingChar col) :
    isInCheck b col = false := by
  have hf : findKing b col = none := by
    cases hfk : findKing b col with
    | none => rfl
    | some p =>
      obtain ⟨r, c⟩ := p
      have := findKing_some b col r c hfk
      exact absurd this.2 (h r c this.1)
  unfold isInCheck
  rw [hf]

theorem noKingBoard_no_black_king :
    ∀ r c : Int, onBoard r c = true → noKingBoard.get r c ≠ kingChar Color.BLACK :=
  forall_onBoard _ (by decide!)

theorem isInCheck_no_king_witness :
    (∀ r c : Int, onBoard r c = true → noKingBoard.get r c ≠ kingChar Color.BLACK) ∧
      isInCheck noKingBoard Color.BLACK = false :=
  ⟨noKingBoard_no_black_king,
    isInCheck_no_king noKingBoard Color.BLACK noKingBoard_no_black_king⟩

theorem mem_allSquares (s : Int × Int) : s ∈ allSquares ↔ onBoard s.1 s.2 = true := by
  obtain ⟨r, c⟩ := s
  simp only [allSquares, List.mem_flatMap, List.mem_map, List.mem_range, BOARD_SIZE,
    Prod.mk.injEq, onBoard_iff]
  constructor
  · rintro ⟨i, hi, j, hj, rfl, rfl⟩
    omega
  · rintro ⟨h1, h2, h3, h4⟩
    exact ⟨r.toNat, by omega, c.toNat, by omega, by omega, by omega⟩

theorem allSquares_nodup : allSquares.Nodup := by decide!

theorem countP_le_of_injOn {α : Type} (l : List α) (hl : l.Nodup) (p q : α → Bool)
    (f : α → α) (hf : ∀ x ∈ l, p x = true → f x ∈ l ∧ q (f x) = true)
    (hinj : ∀ x ∈ l, ∀ y ∈ l, p x = true → p y = true → f x = f y → x = y) :
    l.countP p ≤ l.countP q := by
  rw [List.countP_eq_length_filter, List.countP_eq_length_filter]
  have hnd : ((l.filter p).map f).Nodup := by
    refine List.Nodup.map_on ?_ (hl.filter _)
    intro x hx y hy hxy
    rw [List.mem_filter] at hx hy
    exact hinj x hx.1 y hy.1 hx.2 hy.2 hxy
  have hsub : (l.filter p).map f ⊆ l.filter q := by
    intro y hy
    rw [List.mem_map] at hy
    obtain ⟨x, hx, rfl⟩ := hy
    rw [List.mem_filter] at hx ⊢
    exact hf x hx.1 hx.2
  have := (List.subperm_of_subset hnd hsub).length_le
  simpa using this

theorem kingCount_makeMove_le (b : Board) (m : Move) (col : Color)
    (hfrom : onBoard m.from_r m.from_c = true) :
    kingCount (makeMove b m) col ≤ kingCount b col := by
  have hQ : ∀ w : Bool, (if w = true then 'Q' else 'q') ≠ kingChar col := by
    intro w; cases w <;> cases col <;> decide
  have hdot : '.' ≠ kingChar col := by cases col <;> decide
  have hnew : ∀ s : Int × Int, onBoard s.1 s.2 = true →
      (makeMove b m).get s.1 s.2 = kingChar col →
      ¬(s.1 = m.from_r ∧ s.2 = m.from_c) ∧
        ((s.1 = m.to_r ∧ s.2 = m.to_c) → b.get m.from_r m.from_c = kingChar col) ∧
        (¬(s.1 = m.to_r ∧ s.2 = m.to_c) → b.get s.1 s.2 = kingChar col) := by
    intro s hs hk
    rw [makeMove_get b m s.1 s.2 hs] at hk
    by_cases hp : m.promotion ≠ NUL ∧ s.1 = m.to_r ∧ s.2 = m.to_c
    · rw [if_pos hp] at hk
      exact absurd hk (hQ _)
    · rw [if_neg hp] at hk
      by_cases hf : s.1 = m.from_r ∧ s.2 = m.from_c
      · rw [if_pos hf] at hk
        exact absurd hk hdot
      · rw [if_neg hf] at hk
        by_cases ht : s.1 = m.to_r ∧ s.2 = m.to_c
        · rw [if_pos ht] at hk
          exact ⟨hf, fun _ => hk, fun h => absurd ht h⟩
        · rw [if_neg ht] at hk
          exact ⟨hf, fun h => absurd h ht, fun _ => hk⟩
  unfold kingCount
  refine countP_le_of_injOn allSquares allSquares_nodup _ _
    (fun s => if s.1 = m.to_r ∧ s.2 = m.to_c then (m.from_r, m.from_c) else s) ?_ ?_
  · intro s hs hp
    rw [mem_allSquares] at hs
    have hk : (makeMove b m).get s.1 s.2 = kingChar col := by simpa using hp
    obtain ⟨_, h2, h3⟩ := hnew s hs hk
    beta_reduce
    by_cases hto : s.1 = m.to_r ∧ s.2 = m.to_c
    · rw [if_pos hto]
      exact ⟨(mem_allSquares _).2 hfrom, by simpa using h2 hto⟩
    · rw [if_neg hto]
      exact ⟨(mem_allSquares _).2 hs, by simpa using h3 hto⟩
  · intro x hx y hy hpx hpy hxy
    rw [mem_allSquares] at hx hy
    have hkx : (makeMove b m).get x.1 x.2 = kingChar col := by simpa using hpx
    have hky : (makeMove b m).get y.1 y.2 = kingChar col := by simpa using hpy
    obtain ⟨hx1, _, _⟩ := hnew x hx hkx
    obtain ⟨hy1, _, _⟩ := hnew y hy hky
    beta_reduce at hxy
    by_cases hxt : x.1 = m.to_r ∧ x.2 = m.to_c <;> by_cases hyt : y.1 = m.to_r ∧ y.2 = m.to_c
    · exact Prod.ext (hxt.1.trans hyt.1.symm) (hxt.2.trans hyt.2.symm)
    · rw [if_pos hxt, if_neg hyt] at hxy
      exact absurd ⟨congrArg Prod.fst hxy.symm, congrArg Prod.snd hxy.symm⟩ hy1
    · rw [if_neg hxt, if_pos hyt] at hxy
      exact absurd ⟨congrArg Prod.fst hxy, congrArg Prod.snd hxy⟩ hx1
    · rw [if_neg hxt, if_neg hyt] at hxy
      exact hxy

/-- C14: after reset there is at most one king of each colour, and a move with in-range
coordinates, with or without promotion, never increases the number of kings of either
colour, so it preserves that property. -/
theorem king_count_invariant (b0 b : Board) (m : Move)
    (hfrom : onBoard m.from_r m.from_c = true) (_hto : onBoard m.to_r m.to_c = true) :
    atMostOneKingEach (reset b0) ∧
    (∀ col : Color, kingCount (makeMove b m) col ≤ kingCount b col) ∧
    (atMostOneKingEach b → atMostOneKingEach (makeMove b m)) := by
  refine ⟨?_, fun col => kingCount_makeMove_le b m col hfrom, ?_⟩
  · rw [reset_eq]
    exact ⟨by decide!, by decide!⟩
  · rintro ⟨h1, h2⟩
    exact ⟨le_trans (kingCount_makeMove_le b m _ hfrom) h1,
      le_trans (kingCount_makeMove_le b m _ hfrom) h2⟩

theorem king_count_invariant_witness :
    (onBoard 7 4 = true ∧ onBoard 0 4 = true) ∧
    (atMostOneKingEach (reset noKingBoard) ∧
    (∀ col : Color, kingCount (makeMove Board.new ⟨7, 4, 0, 4, 'q'⟩) col ≤
      kingCount Board.new col) ∧
    (atMostOneKingEach Board.new → atMostOneKingEach (makeMove Board.new ⟨7, 4, 0, 4, 'q'⟩))) :=
  ⟨⟨by decide, by decide⟩,
    king_count_invariant noKingBoard Board.new ⟨7, 4, 0, 4, 'q'⟩ (by decide) (by decide)⟩

/-! ## Coordinate notation (`src/game.cpp`) -/

theorem fileChar_props (c : Int) (h0 : 0 ≤ c) (h1 : c < 8) :
    (isalpha (intToChar ((kFileA.toNat : Int) + c)) ||
        isdigit (intToChar ((kFileA.toNat : Int) + c)) ||
        intToChar ((kFileA.toNat : Int) + c) == '-' ||
        intToChar ((kFileA.toNat : Int) + c) == ' ') = true ∧
      tolower (intToChar ((kFileA.toNat : Int) + c)) = intToChar ((kFileA.toNat : Int) + c) ∧
      (intToChar ((kFileA.toNat : Int) + c) != ' ') = true ∧
      (intToChar ((kFileA.toNat : Int) + c) != '-') = true ∧
      validFile (intToChar ((kFileA.toNat : Int) + c)) = true ∧
      fileToCol (intToChar ((kFileA.toNat : Int) + c)) = c := by
  interval_cases c <;> decide

theorem rankChar_props (r : Int) (h0 : 0 ≤ r) (h1 : r < 8) :
    (isalpha (intToChar ((kRank1.toNat : Int) + (7 - r))) ||
        isdigit (intToChar ((kRank1.toNat : Int) + (7 - r))) ||
        intToChar ((kRank1.toNat : Int) + (7 - r)) == '-' ||
        intToChar ((kRank1.toNat : Int) + (7 - r)) == ' ') = true ∧
      tolower (intToChar ((kRank1.toNat : Int) + (7 - r))) =
        intToChar ((kRank1.toNat : Int) + (7 - r)) ∧
      (intToChar ((kRank1.toNat : Int) + (7 - r)) != ' ') = true ∧
      (intToChar ((kRank1.toNat : Int) + (7 - r)) != '-') = true ∧
      validRank (intToChar ((kRank1.toNat : Int) + (7 - r))) = true ∧
      rankToRow (intToChar ((kRank1.toNat : Int) + (7 - r))) = r := by
  interval_cases r <;> decide

theorem parse_four (a r1 c r2 : Char) (rest : List Char)
    (ha : (isalpha a || isdigit a || a == '-' || a == ' ') = true ∧ tolower a = a ∧
      (a != ' ') = true ∧ (a != '-') = true)
    (hr1 : (isalpha r1 || isdigit r1 || r1 == '-' || r1 == ' ') = true ∧ tolower r1 = r1 ∧
      (r1 != ' ') = true ∧ (r1 != '-') = true)
    (hc : (isalpha c || isdigit c || c == '-' || c == ' ') = true ∧ tolower c = c ∧
      (c != ' ') = true ∧ (c != '-') = true)
    (hr2 : (isalpha r2 || isdigit r2 || r2 == '-' || r2 == ' ') = true ∧ tolower r2 = r2 ∧
      (r2 != ' ') = true ∧ (r2 != '-') = true)
    (hrest : rest = [] ∨ rest = ['q'] ∨ rest = ['r'] ∨ rest = ['b'] ∨ rest = ['n'])
    (hv : validFile a = true ∧ validFile c = true ∧ validRank r1 = true ∧ validRank r2 = true) :
    parseMoveStr (a :: r1 :: c :: r2 :: rest) =
      some ⟨rankToRow r1, fileToCol a, rankToRow r2, fileToCol c, rest.headD NUL⟩ := by
  obtain ⟨ha1, ha2, ha3, ha4⟩ := ha
  obtain ⟨hr11, hr12, hr13, hr14⟩ := hr1
  obtain ⟨hc1, hc2, hc3, hc4⟩ := hc
  obtain ⟨hr21, hr22, hr23, hr24⟩ := hr2
  obtain ⟨hv1, hv2, hv3, hv4⟩ := hv
  have hfold : ∀ (xs : List Char) (t : List Char), (∀ x ∈ xs,
      (isalpha x || isdigit x || x == '-' || x == ' ') = true ∧ tolower x = x) →
      xs.foldl (fun t ch =>
        if isalpha ch || isdigit ch || ch == '-' || ch == ' ' then t ++ [tolower ch] else t) t =
        t ++ xs := by
    intro xs
    induction xs with
    | nil => intro t _; simp
    | cons x xs ih =>
      intro t h
      have hx := h x (by simp)
      rw [List.foldl_cons, if_pos hx.1, hx.2, ih _ (fun y hy => h y (by simp [hy]))]
      simp
  have hrestOK : ∀ x ∈ rest, ((isalpha x || isdigit x || x == '-' || x == ' ') = true ∧
      tolower x = x) ∧ (x != ' ') = true ∧ (x != '-') = true := by
    intro x hx
    rcases hrest with rfl | rfl | rfl | rfl | rfl <;> simp at hx <;> subst hx <;> decide
  unfold parseMoveStr
  simp only []
  rw [hfold _ [] (by
    intro x hx
    simp only [List.mem_cons] at hx
    rcases hx with rfl | rfl | rfl | rfl | hx
    · exact ⟨ha1, ha2⟩
    · exact ⟨hr11, hr12⟩
    · exact ⟨hc1, hc2⟩
    · exact ⟨hr21, hr22⟩
    · exact (hrestOK x hx).1)]
  have hf1 : (a :: r1 :: c :: r2 :: rest).filter (fun ch => ch != ' ') =
      a :: r1 :: c :: r2 :: rest := by
    rw [List.filter_eq_self]
    intro x hx
    simp only [List.mem_cons] at hx
    rcases hx with rfl | rfl | rfl | rfl | hx
    · exact ha3
    · exact hr13
    · exact hc3
    · exact hr23
    · exact (hrestOK x hx).2.1
  have hf2 : (a :: r1 :: c :: r2 :: rest).filter (fun ch => ch != '-') =
      a :: r1 :: c :: r2 :: rest := by
    rw [List.filter_eq_self]
    intro x hx
    simp only [List.mem_cons] at hx
    rcases hx with rfl | rfl | rfl | rfl | hx
    · exact ha4
    · exact hr14
    · exact hc4
    · exact hr24
    · exact (hrestOK x hx).2.2
  rw [List.nil_append, hf1, hf2]
  rcases hrest with rfl | rfl | rfl | rfl | rfl <;>
    simp [kMinMoveChars, kPromoIndex, hv1, hv2, hv3, hv4]

/-- C20: a move with in-range coordinates and no promotion or one of the promotion
letters q, r, b, n is read back unchanged from its coordinate notation. -/
theorem parseMoveStr_moveToStr (m : Move)
    (hfrom : onBoard m.from_r m.from_c = true) (hto : onBoard m.to_r m.to_c = true)
    (hp : m.promotion = NUL ∨ m.promotion = 'q' ∨ m.promotion = 'r' ∨ m.promotion = 'b' ∨
      m.promotion = 'n') :
    parseMoveStr (moveToStr m) = some m := by
  obtain ⟨fr, fc, tr, tc, p⟩ := m
  simp only [] at hfrom hto hp
  rw [onBoard_iff] at hfrom hto
  obtain ⟨a1, a2, a3, a4, a5, a6⟩ := fileChar_props fc hfrom.2.2.1 hfrom.2.2.2
  obtain ⟨b1, b2, b3, b4, b5, b6⟩ := rankChar_props fr hfrom.1 hfrom.2.1
  obtain ⟨c1, c2, c3, c4, c5, c6⟩ := fileChar_props tc hto.2.2.1 hto.2.2.2
  obtain ⟨d1, d2, d3, d4, d5, d6⟩ := rankChar_props tr hto.1 hto.2.1
  have hstr : moveToStr ⟨fr, fc, tr, tc, p⟩ =
      intToChar ((kFileA.toNat : Int) + fc) :: intToChar ((kRank1.toNat : Int) + (7 - fr)) ::
      intToChar ((kFileA.toNat : Int) + tc) :: intToChar ((kRank1.toNat : Int) + (7 - tr)) ::
      (if p = NUL then [] else [p]) := by
    rcases hp with rfl | rfl | rfl | rfl | rfl <;> rfl
  rw [hstr, parse_four _ _ _ _ _ ⟨a1, a2, a3, a4⟩ ⟨b1, b2, b3, b4⟩ ⟨c1, c2, c3, c4⟩
    ⟨d1, d2, d3, d4⟩ (by rcases hp with rfl | rfl | rfl | rfl | rfl <;> decide)
    ⟨a5, c5, b5, d5⟩, a6, b6, c6, d6]
  rcases hp with rfl | rfl | rfl | rfl | rfl <;> rfl

theorem parseMoveStr_moveToStr_witness :
    (onBoard 1 4 = true ∧ onBoard 0 4 = true ∧
      (('r' : Char) = NUL ∨ ('r' : Char) = 'q' ∨ ('r' : Char) = 'r' ∨ ('r' : Char) = 'b' ∨
        ('r' : Char) = 'n')) ∧
    parseMoveStr (moveToStr ⟨1, 4, 0, 4, 'r'⟩) = some ⟨1, 4, 0, 4, 'r'⟩ :=
  ⟨⟨by decide, by decide, by decide⟩,
    parseMoveStr_moveToStr ⟨1, 4, 0, 4, 'r'⟩ (by decide) (by decide) (by decide)⟩

/-! ## The attack scan against move generation -/

theorem tolower_owned (b : Board) (col : Color) (row c : Int) (hown : ownedBy b col row c)
    (pl : Char) (hpl : isBlackPiece pl = true) :
    tolower (b.get row c) = pl ↔ b.get row c = pieceLetter col pl := by
  rcases hown with ⟨rfl, h⟩ | ⟨rfl, h⟩
  · exact tolower_white _ h pl hpl
  · rw [tolower_black _ h]
    rfl

theorem ownedBy_of_letter (b : Board) (col : Color) (row c : Int) (pl : Char)
    (hpl : isBlackPiece pl = true) (h : b.get row c = pieceLetter col pl) :
    ownedBy b col row c := by
  obtain ⟨k, h1, h2, rfl⟩ := black_cases pl hpl
  cases col
  · left
    refine ⟨rfl, ?_⟩
    rw [h]
    interval_cases k <;> decide
  · right
    refine ⟨rfl, ?_⟩
    rw [h]
    exact hpl

theorem knightAttack_iff (b : Board) (r c : Int) (col : Color) :
    knightAttack b r c col = true ↔
      ∃ d ∈ kKnightDirs, onBoard (r + d.1) (c + d.2) = true ∧
        b.get (r + d.1) (c + d.2) = pieceLetter col 'n' := by
  unfold knightAttack
  rw [List.any_eq_true]
  constructor
  · rintro ⟨d, hd, h⟩
    refine ⟨d, hd, ?_⟩
    by_cases hon : onBoard (r + d.1) (c + d.2) = true
    · cases col <;> simpa [hon, pieceLetter, upperOf] using h
    · simp [hon] at h
  · rintro ⟨d, hd, hon, h⟩
    refine ⟨d, hd, ?_⟩
    cases col <;> simpa [hon, pieceLetter, upperOf] using h

theorem kingAttack_iff (b : Board) (r c : Int) (col : Color) :
    kingAttack b r c col = true ↔
      ∃ d ∈ kKingDirs, onBoard (r + d.1) (c + d.2) = true ∧
        b.get (r + d.1) (c + d.2) = pieceLetter col 'k' := by
  unfold kingAttack
  rw [List.any_eq_true]
  constructor
  · rintro ⟨d, hd, h⟩
    refine ⟨d, hd, ?_⟩
    by_cases hon : onBoard (r + d.1) (c + d.2) = true
    · cases col <;> simpa [hon, pieceLetter, upperOf] using h
    · simp [hon] at h
  · rintro ⟨d, hd, hon, h⟩
    refine ⟨d, hd, ?_⟩
    cases col <;> simpa [hon, pieceLetter, upperOf] using h

theorem bishopAttack_iff (b : Board) (r c : Int) (col : Color) :
    bishopAttack b r c col = true ↔
      ∃ d ∈ kBishopDirs, attackRay b (pieceLetter col 'b') (pieceLetter col 'q') d.1 d.2
        BOARD_SIZE (r + d.1) (c + d.2) = true := by
  unfold bishopAttack
  rw [List.any_eq_true]
  cases col <;> simp [pieceLetter, upperOf]

theorem rookAttack_iff (b : Board) (r c : Int) (col : Color) :
    rookAttack b r c col = true ↔
      ∃ d ∈ kRookDirs, attackRay b (pieceLetter col 'r') (pieceLetter col 'q') d.1 d.2
        BOARD_SIZE (r + d.1) (c + d.2) = true := by
  unfold rookAttack
  rw [List.any_eq_true]
  cases col <;> simp [pieceLetter, upperOf]

theorem pawnAttack_exists (b : Board) (r c : Int) (col : Color)
    (h : pawnAttack b r c col = true) :
    ∃ r' c' : Int, onBoard r' c' = true ∧ b.get r' c' = pieceLetter col 'p' := by
  unfold pawnAttack at h
  cases col
  · simp only [beq_self_eq_true, if_true, List.any_eq_true, Bool.and_eq_true, beq_iff_eq] at h
    obtain ⟨d, _, hon, hp⟩ := h
    exact ⟨_, _, hon, hp⟩
  · have hc : (Color.BLACK == Color.WHITE) = false := by decide
    simp only [hc, Bool.false_eq_true, if_false, List.any_eq_true, Bool.and_eq_true,
      beq_iff_eq] at h
    obtain ⟨d, _, hon, hp⟩ := h
    exact ⟨_, _, hon, hp⟩

theorem isAttacked_iff (b : Board) (r c : Int) (col : Color) :
    isAttacked b r c col = true ↔
      pawnAttack b r c col = true ∨ knightAttack b r c col = true ∨
        bishopAttack b r c col = true ∨ rookAttack b r c col = true ∨
        kingAttack b r c col = true := by
  unfold isAttacked
  cases pawnAttack b r c col <;> cases knightAttack b r c col <;>
    cases bishopAttack b r c col <;> cases rookAttack b r c col <;>
    cases kingAttack b r c col <;> simp

theorem attackRay_true (b : Board) (a1 a2 : Char) (dr dc : Int) (fuel : Nat) (sr sc : Int)
    (h : attackRay b a1 a2 dr dc fuel sr sc = true) :
    ∃ n : Nat, n < fuel ∧
      (∀ j : Nat, j < n → onBoard (sr + j * dr) (sc + j * dc) = true ∧
        isEmpty (b.get (sr + j * dr) (sc + j * dc)) = true) ∧
      onBoard (sr + n * dr) (sc + n * dc) = true ∧
      (b.get (sr + n * dr) (sc + n * dc) = a1 ∨ b.get (sr + n * dr) (sc + n * dc) = a2) := by
  induction fuel generalizing sr sc with
  | zero => simp [attackRay] at h
  | succ f ih =>
    simp only [attackRay] at h
    by_cases hon : onBoard sr sc = true
    · by_cases he : isEmpty (b.get sr sc) = true
      · simp only [hon, he, if_true, Bool.not_true, Bool.false_eq_true, if_false] at h
        obtain ⟨n, hn, hall, hon', hit⟩ := ih _ _ h
        have shift : ∀ k : Nat, sr + ((k + 1 : Nat) : Int) * dr = sr + dr + (k : Int) * dr ∧
            sc + ((k + 1 : Nat) : Int) * dc = sc + dc + (k : Int) * dc := by
          intro k; push_cast; constructor <;> ring
        refine ⟨n + 1, by omega, ?_, ?_, ?_⟩
        · intro j hj
          cases j with
          | zero => simpa using ⟨hon, he⟩
          | succ j =>
            rw [(shift j).1, (shift j).2]
            exact hall j (by omega)
        · rw [(shift n).1, (shift n).2]; exact hon'
        · rw [(shift n).1, (shift n).2]; exact hit
      · simp only [hon, he, if_true, Bool.not_false] at h
        refine ⟨0, by omega, by simp, by simpa using hon, ?_⟩
        simp only [Nat.cast_zero, zero_mul, add_zero]
        by_cases h1 : b.get sr sc = a1
        · exact Or.inl h1
        · by_cases h2 : b.get sr sc = a2
          · exact Or.inr h2
          · simp [h1, h2] at h
    · simp [hon] at h

theorem neg_mem_kKnightDirs (d : Int × Int) (hd : d ∈ kKnightDirs) :
    (-d.1, -d.2) ∈ kKnightDirs := by
  simp only [kKnightDirs, List.mem_cons, List.mem_singleton, List.not_mem_nil, or_false] at hd
  rcases hd with rfl | rfl | rfl | rfl | rfl | rfl | rfl | rfl <;> decide

theorem neg_mem_kKingDirs (d : Int × Int) (hd : d ∈ kKingDirs) :
    (-d.1, -d.2) ∈ kKingDirs := by
  simp only [kKingDirs, List.mem_cons, List.mem_singleton, List.not_mem_nil, or_false] at hd
  rcases hd with rfl | rfl | rfl | rfl | rfl | rfl | rfl | rfl <;> decide

theorem neg_mem_kBishopDirs (d : Int × Int) (hd : d ∈ kBishopDirs) :
    (-d.1, -d.2) ∈ kBishopDirs := by
  simp only [kBishopDirs, List.mem_cons, List.mem_singleton, List.not_mem_nil, or_false] at hd
  rcases hd with rfl | rfl | rfl | rfl <;> decide

theorem neg_mem_kRookDirs (d : Int × Int) (hd : d ∈ kRookDirs) :
    (-d.1, -d.2) ∈ kRookDirs := by
  simp only [kRookDirs, List.mem_cons, List.mem_singleton, List.not_mem_nil, or_false] at hd
  rcases hd with rfl | rfl | rfl | rfl <;> decide

theorem validCell_cases (t : Char) (h : validCell t = true) :
    isEmpty t = true ∨ isWhitePiece t = true ∨ isBlackPiece t = true := by
  simp only [validCell, String.toList, List.contains_eq_any_beq, List.any_eq_true,
    beq_iff_eq] at h
  obtain ⟨x, hx, rfl⟩ := h
  simp only [List.mem_cons, List.mem_singleton, List.not_mem_nil, or_false] at hx
  rcases hx with rfl | rfl | rfl | rfl | rfl | rfl | rfl | rfl | rfl | rfl | rfl | rfl | rfl <;>
    decide

theorem target_ok (b : Board) (col : Color) (r c row c' : Int)
    (hcell : validCell (b.get r c) = true) (hnot : ¬ownedBy b col r c)
    (hown : ownedBy b col row c') :
    isEmpty (b.get r c) = true ∨
      isOpponentPiece (b.get r c) (isWhitePiece (b.get row c')) = true := by
  have hw := ownedBy_white_iff b col row c' hown
  rcases validCell_cases _ hcell with h | h | h
  · exact Or.inl h
  · right
    rw [isOpponentPiece_iff]
    refine ⟨not_isEmpty_of_white h, ?_⟩
    cases col
    · exact absurd (Or.inl ⟨rfl, h⟩) hnot
    · have : isWhitePiece (b.get row c') = false := by
        rw [← Bool.not_eq_true, hw]; decide
      rw [this]; simpa using h
  · right
    rw [isOpponentPiece_iff]
    refine ⟨not_isEmpty_of_black h, ?_⟩
    cases col
    · rw [hw.2 rfl]; simpa using h
    · exact absurd (Or.inr ⟨rfl, h⟩) hnot

theorem stepMove_mem (b : Board) (col : Color) (row c' : Int) (pl : Char)
    (dirs : List (Int × Int))
    (hkind : (pl = 'n' ∧ dirs = kKnightDirs) ∨ (pl = 'k' ∧ dirs = kKingDirs))
    (hs : onBoard row c' = true) (hp : b.get row c' = pieceLetter col pl)
    (o : Int × Int) (ho : o ∈ dirs) (hon : onBoard (row + o.1) (c' + o.2) = true)
    (htgt : isEmpty (b.get (row + o.1) (c' + o.2)) = true ∨
      isOpponentPiece (b.get (row + o.1) (c' + o.2)) (isWhitePiece (b.get row c')) = true) :
    (⟨row, c', row + o.1, c' + o.2, NUL⟩ : Move) ∈ pseudoMoves b col := by
  have hblack : isBlackPiece pl = true := by
    rcases hkind with ⟨rfl, _⟩ | ⟨rfl, _⟩ <;> decide
  have hown := ownedBy_of_letter b col row c' pl hblack hp
  have hlow := (tolower_owned b col row c' hown pl hblack).2 hp
  rw [mem_pseudoMoves_kind]
  refine ⟨row, c', hs, hown, ?_⟩
  rw [hlow]
  unfold kindMoves
  rcases hkind with ⟨rfl, rfl⟩ | ⟨rfl, rfl⟩
  · rw [if_neg (by decide), if_pos (by decide), List.mem_flatMap]
    exact ⟨o, ho, (mem_stepDir b row c' _ o _).2 ⟨rfl, hon, htgt⟩⟩
  · rw [if_neg (by decide), if_neg (by decide), if_pos (by decide), List.mem_flatMap]
    exact ⟨o, ho, (mem_stepDir b row c' _ o _).2 ⟨rfl, hon, htgt⟩⟩

theorem slideMove_mem (b : Board) (col : Color) (row c' : Int) (pl : Char)
    (hpl : pl = 'b' ∨ pl = 'r' ∨ pl = 'q')
    (hs : onBoard row c' = true) (hp : b.get row c' = pieceLetter col pl)
    (d : Int × Int) (hd : d ∈ slidingDirs pl) (k : Nat) (hk : 1 ≤ k)
    (hon : onBoard (row + k * d.1) (c' + k * d.2) = true)
    (hclear : ∀ j : Nat, 1 ≤ j → j < k →
      isEmpty (b.get (row + j * d.1) (c' + j * d.2)) = true)
    (htgt : isEmpty (b.get (row + k * d.1) (c' + k * d.2)) = true ∨
      isOpponentPiece (b.get (row + k * d.1) (c' + k * d.2))
        (isWhitePiece (b.get row c')) = true) :
    (⟨row, c', row + k * d.1, c' + k * d.2, NUL⟩ : Move) ∈ pseudoMoves b col := by
  have hblack : isBlackPiece pl = true := by
    rcases hpl with rfl | rfl | rfl <;> decide
  have hown := ownedBy_of_letter b col row c' pl hblack hp
  have hlow := (tolower_owned b col row c' hown pl hblack).2 hp
  rw [mem_pseudoMoves_kind]
  refine ⟨row, c', hs, hown, ?_⟩
  rw [hlow]
  unfold kindMoves
  have h1 : (pl == 'p') = false := by rcases hpl with rfl | rfl | rfl <;> decide
  have h2 : (pl == 'n') = false := by rcases hpl with rfl | rfl | rfl <;> decide
  have h3 : (pl == 'k') = false := by rcases hpl with rfl | rfl | rfl <;> decide
  simp only [h1, h2, h3, Bool.false_eq_true, if_false]
  rw [List.mem_flatMap]
  refine ⟨d, hd, ?_⟩
  rw [slideDir_mem b row c' _ d (slidingDirs_subset pl d hd) hs]
  exact ⟨k, hk, rfl, hon, hclear, htgt⟩

theorem ray_attack_of_slide (b : Board) (fr fc : Int) (d : Int × Int)
    (hd : d ∈ kBishopDirs ++ kRookDirs) (k : Nat) (hk : 1 ≤ k) (hs : onBoard fr fc = true)
    (hon : onBoard (fr + k * d.1) (fc + k * d.2) = true)
    (hclear : ∀ j : Nat, 1 ≤ j → j < k →
      isEmpty (b.get (fr + j * d.1) (fc + j * d.2)) = true)
    (a1 a2 : Char) (hit : b.get fr fc = a1 ∨ b.get fr fc = a2)
    (hne : isEmpty (b.get fr fc) = false) :
    attackRay b a1 a2 (-d.1) (-d.2) BOARD_SIZE (fr + k * d.1 + -d.1) (fc + k * d.2 + -d.2) =
      true := by
  obtain ⟨n, rfl⟩ : ∃ n, k = n + 1 := ⟨k - 1, by omega⟩
  have hconv := onBoard_ray_conv fr fc d hd hs (n + 1)
  have sq : ∀ j : Nat, j ≤ n →
      fr + ((n + 1 : Nat) : Int) * d.1 + -d.1 + (j : Int) * -d.1 =
        fr + ((n - j : Nat) : Int) * d.1 ∧
      fc + ((n + 1 : Nat) : Int) * d.2 + -d.2 + (j : Int) * -d.2 =
        fc + ((n - j : Nat) : Int) * d.2 := by
    intro j hj
    rw [Nat.cast_sub hj]
    push_cast
    constructor <;> ring
  apply attackRay_hit b a1 a2 (-d.1) (-d.2) n BOARD_SIZE
  · have := (hconv 0 (by omega) hon).2
    simp only [BOARD_SIZE]; omega
  · intro j hj
    rw [(sq j (by omega)).1, (sq j (by omega)).2]
    exact ⟨(hconv (n - j) (by omega) hon).1, hclear (n - j) (by omega) (by omega)⟩
  · rw [(sq n (le_refl n)).1, (sq n (le_refl n)).2]
    simpa using hs
  · rw [(sq n (le_refl n)).1, (sq n (le_refl n)).2]
    simpa using hit
  · rw [(sq n (le_refl n)).1, (sq n (le_refl n)).2]
    simpa using hne

theorem slide_of_ray_attack (b : Board) (r c : Int) (d : Int × Int) (n : Nat)
    (hall : ∀ j : Nat, j < n → onBoard (r + d.1 + j * d.1) (c + d.2 + j * d.2) = true ∧
      isEmpty (b.get (r + d.1 + j * d.1) (c + d.2 + j * d.2)) = true) :
    r + d.1 + n * d.1 + ((n + 1 : Nat) : Int) * -d.1 = r ∧
    c + d.2 + n * d.2 + ((n + 1 : Nat) : Int) * -d.2 = c ∧
    ∀ j : Nat, 1 ≤ j → j < n + 1 →
      isEmpty (b.get (r + d.1 + n * d.1 + (j : Int) * -d.1)
        (c + d.2 + n * d.2 + (j : Int) * -d.2)) = true := by
  refine ⟨by push_cast; ring, by push_cast; ring, ?_⟩
  intro j hj1 hjn
  have e1 : r + d.1 + n * d.1 + (j : Int) * -d.1 = r + d.1 + ((n - j : Nat) : Int) * d.1 := by
    rw [Nat.cast_sub (by omega)]; ring
  have e2 : c + d.2 + n * d.2 + (j : Int) * -d.2 = c + d.2 + ((n - j : Nat) : Int) * d.2 := by
    rw [Nat.cast_sub (by omega)]; ring
  rw [e1, e2]
  exact (hall (n - j) (by omega)).2

theorem move_of_ray (b : Board) (col : Color) (r c : Int)
    (hcell : validCell (b.get r c) = true) (hnot : ¬ownedBy b col r c)
    (hon : onBoard r c = true) (pl1 : Char) (hpl1 : pl1 = 'b' ∨ pl1 = 'r')
    (d : Int × Int) (hd : d ∈ slidingDirs pl1)
    (h : attackRay b (pieceLetter col pl1) (pieceLetter col 'q') d.1 d.2 BOARD_SIZE
      (r + d.1) (c + d.2) = true) :
    ∃ m ∈ pseudoMoves b col, m.to_r = r ∧ m.to_c = c := by
  obtain ⟨n, _, hall, hon', hit⟩ := attackRay_true b _ _ d.1 d.2 BOARD_SIZE _ _ h
  obtain ⟨e1, e2, hclear⟩ := slide_of_ray_attack b r c d n hall
  have hnegd : ∀ pl : Char, (pl = pl1 ∨ pl = 'q') → (-d.1, -d.2) ∈ slidingDirs pl := by
    intro pl hpl
    rcases hpl1 with rfl | rfl
    · have hd' : d ∈ kBishopDirs := hd
      rcases hpl with rfl | rfl
      · exact neg_mem_kBishopDirs d hd'
      · exact List.mem_append_left _ (neg_mem_kBishopDirs d hd')
    · have hd' : d ∈ kRookDirs := hd
      rcases hpl with rfl | rfl
      · exact neg_mem_kRookDirs d hd'
      · exact List.mem_append_right _ (neg_mem_kRookDirs d hd')
  have build : ∀ pl : Char, (pl = pl1 ∨ pl = 'q') →
      b.get (r + d.1 + n * d.1) (c + d.2 + n * d.2) = pieceLetter col pl →
      ∃ m ∈ pseudoMoves b col, m.to_r = r ∧ m.to_c = c := by
    intro pl hpl hp
    have hkind : pl = 'b' ∨ pl = 'r' ∨ pl = 'q' := by
      rcases hpl with rfl | rfl
      · rcases hpl1 with rfl | rfl
        · exact Or.inl rfl
        · exact Or.inr (Or.inl rfl)
      · exact Or.inr (Or.inr rfl)
    have hblack : isBlackPiece pl = true := by
      rcases hkind with rfl | rfl | rfl <;> decide
    have hown := ownedBy_of_letter b col _ _ pl hblack hp
    have htgt := target_ok b col r c _ _ hcell hnot hown
    have hmem := slideMove_mem b col _ _ pl hkind hon' hp (-d.1, -d.2) (hnegd pl hpl) (n + 1)
      (by omega) (by simp only []; rw [e1, e2]; exact hon) hclear
      (by simp only []; rw [e1, e2]; exact htgt)
    exact ⟨_, hmem, e1, e2⟩
  rcases hit with hp | hp
  · exact build pl1 (Or.inl rfl) hp
  · exact build 'q' (Or.inr rfl) hp

theorem move_of_isAttacked (b : Board) (col : Color) (r c : Int)
    (hon : onBoard r c = true)
    (hnopawn : ∀ r' c' : Int, onBoard r' c' = true → b.get r' c' ≠ pieceLetter col 'p')
    (hcell : validCell (b.get r c) = true) (hnot : ¬ownedBy b col r c)
    (h : isAttacked b r c col = true) :
    ∃ m ∈ pseudoMoves b col, m.to_r = r ∧ m.to_c = c := by
  have step : ∀ (pl : Char) (dirs : List (Int × Int)),
      ((pl = 'n' ∧ dirs = kKnightDirs) ∨ (pl = 'k' ∧ dirs = kKingDirs)) →
      (∀ d ∈ dirs, (-d.1, -d.2) ∈ dirs) →
      (∃ d ∈ dirs, onBoard (r + d.1) (c + d.2) = true ∧
        b.get (r + d.1) (c + d.2) = pieceLetter col pl) →
      ∃ m ∈ pseudoMoves b col, m.to_r = r ∧ m.to_c = c := by
    rintro pl dirs hkind hneg ⟨d, hd, hon', hp⟩
    have hblack : isBlackPiece pl = true := by
      rcases hkind with ⟨rfl, _⟩ | ⟨rfl, _⟩ <;> decide
    have hown := ownedBy_of_letter b col _ _ pl hblack hp
    have htgt := target_ok b col r c _ _ hcell hnot hown
    have e1 : r + d.1 + -d.1 = r := by omega
    have e2 : c + d.2 + -d.2 = c := by omega
    have hmem := stepMove_mem b col _ _ pl dirs hkind hon' hp (-d.1, -d.2) (hneg d hd)
      (by simp only []; rw [e1, e2]; exact hon) (by simp only []; rw [e1, e2]; exact htgt)
    exact ⟨_, hmem, e1, e2⟩
  rw [isAttacked_iff] at h
  rcases h with h | h | h | h | h
  · obtain ⟨r', c', hon', hp⟩ := pawnAttack_exists b r c col h
    exact absurd hp (hnopawn r' c' hon')
  · exact step 'n' kKnightDirs (Or.inl ⟨rfl, rfl⟩) neg_mem_kKnightDirs
      ((knightAttack_iff b r c col).1 h)
  · obtain ⟨d, hd, hray⟩ := (bishopAttack_iff b r c col).1 h
    exact move_of_ray b col r c hcell hnot hon 'b' (Or.inl rfl) d hd hray
  · obtain ⟨d, hd, hray⟩ := (rookAttack_iff b r c col).1 h
    exact move_of_ray b col r c hcell hnot hon 'r' (Or.inr rfl) d hd hray
  · exact step 'k' kKingDirs (Or.inr ⟨rfl, rfl⟩) neg_mem_kKingDirs
      ((kingAttack_iff b r c col).1 h)

theorem isAttacked_of_move (b : Board) (col : Color) (r c : Int)
    (hnopawn : ∀ r' c' : Int, onBoard r' c' = true → b.get r' c' ≠ pieceLetter col 'p')
    (m : Move) (hm : m ∈ pseudoMoves b col) (hto : m.to_r = r ∧ m.to_c = c) :
    isAttacked b r c col = true := by
  obtain ⟨hs, hown, hk, hwf⟩ := pseudoMoves_from b col m hm
  obtain ⟨rfl, rfl⟩ := hto
  have hne := (by
    rcases hown with ⟨_, h⟩ | ⟨_, h⟩
    · exact not_isEmpty_of_white h
    · exact not_isEmpty_of_black h : isEmpty (b.get m.from_r m.from_c) = false)
  have hletter : ∀ pl : Char, isBlackPiece pl = true →
      tolower (b.get m.from_r m.from_c) = pl →
      b.get m.from_r m.from_c = pieceLetter col pl :=
    fun pl hb h => (tolower_owned b col _ _ hown pl hb).1 h
  rw [isAttacked_iff]
  generalize hpl : tolower (b.get m.from_r m.from_c) = pl at hk
  have step : ∀ o : Int × Int, m ∈ stepDir b m.from_r m.from_c
      (isWhitePiece (b.get m.from_r m.from_c)) o →
      m.to_r + -o.1 = m.from_r ∧ m.to_c + -o.2 = m.from_c := by
    intro o ho
    rw [mem_stepDir] at ho
    have e1 : m.to_r = m.from_r + o.1 := by rw [ho.1]
    have e2 : m.to_c = m.from_c + o.2 := by rw [ho.1]
    omega
  unfold kindMoves at hk
  by_cases h1 : (pl == 'p') = true
  · have : pl = 'p' := by simpa using h1
    subst this
    exact absurd (hletter 'p' (by decide) hpl) (hnopawn _ _ hs)
  · rw [if_neg h1] at hk
    by_cases h2 : (pl == 'n') = true
    · have : pl = 'n' := by simpa using h2
      subst this
      rw [if_pos h2, List.mem_flatMap] at hk
      obtain ⟨o, ho, hmo⟩ := hk
      obtain ⟨e1, e2⟩ := step o hmo
      right; left
      rw [knightAttack_iff]
      refine ⟨(-o.1, -o.2), neg_mem_kKnightDirs o ho, ?_, ?_⟩
      · simp only []; rw [e1, e2]; exact hs
      · simp only []; rw [e1, e2]; exact hletter 'n' (by decide) hpl
    · rw [if_neg h2] at hk
      by_cases h3 : (pl == 'k') = true
      · have : pl = 'k' := by simpa using h3
        subst this
        rw [if_pos h3, List.mem_flatMap] at hk
        obtain ⟨o, ho, hmo⟩ := hk
        obtain ⟨e1, e2⟩ := step o hmo
        right; right; right; right
        rw [kingAttack_iff]
        refine ⟨(-o.1, -o.2), neg_mem_kKingDirs o ho, ?_, ?_⟩
        · simp only []; rw [e1, e2]; exact hs
        · simp only []; rw [e1, e2]; exact hletter 'k' (by decide) hpl
      · rw [if_neg h3, List.mem_flatMap] at hk
        obtain ⟨d, hd, hmd⟩ := hk
        have hd' := slidingDirs_subset pl d hd
        rw [slideDir_mem b _ _ _ d hd' hs] at hmd
        obtain ⟨k, hk1, hmeq, hon, hclear, _⟩ := hmd
        have e1 : m.to_r = m.from_r + k * d.1 := by rw [hmeq]
        have e2 : m.to_c = m.from_c + k * d.2 := by rw [hmeq]
        have ray : ∀ a1 a2 : Char,
            (b.get m.from_r m.from_c = a1 ∨ b.get m.from_r m.from_c = a2) →
            attackRay b a1 a2 (-d.1) (-d.2) BOARD_SIZE (m.to_r + -d.1) (m.to_c + -d.2) =
              true := by
          intro a1 a2 hit
          rw [e1, e2]
          exact ray_attack_of_slide b _ _ d hd' k hk1 hs hon hclear a1 a2 hit hne
        unfold slidingDirs at hd
        by_cases hb : (pl == 'b') = true
        · have : pl = 'b' := by simpa using hb
          subst this
          rw [if_pos hb] at hd
          right; right; left
          rw [bishopAttack_iff]
          exact ⟨(-d.1, -d.2), neg_mem_kBishopDirs d hd,
            ray _ _ (Or.inl (hletter 'b' (by decide) hpl))⟩
        · rw [if_neg hb] at hd
          by_cases hr : (pl == 'r') = true
          · have : pl = 'r' := by simpa using hr
            subst this
            rw [if_pos hr] at hd
            right; right; right; left
            rw [rookAttack_iff]
            exact ⟨(-d.1, -d.2), neg_mem_kRookDirs d hd,
              ray _ _ (Or.inl (hletter 'r' (by decide) hpl))⟩
          · rw [if_neg hr] at hd
            by_cases hq : (pl == 'q') = true
            · have : pl = 'q' := by simpa using hq
              subst this
              rw [if_pos hq, List.mem_append] at hd
              rcases hd with hd | hd
              · right; right; left
                rw [bishopAttack_iff]
                exact ⟨(-d.1, -d.2), neg_mem_kBishopDirs d hd,
                  ray _ _ (Or.inr (hletter 'q' (by decide) hpl))⟩
              · right; right; right; left
                rw [rookAttack_iff]
                exact ⟨(-d.1, -d.2), neg_mem_kRookDirs d hd,
                  ray _ _ (Or.inr (hletter 'q' (by decide) hpl))⟩
            · rw [if_neg hq] at hd
              simp at hd

/-- C18: when byColor has no pawns, a square of the board that does not hold a piece of
byColor (and holds '.' or a piece letter, as every cell of a position does) is attacked
by byColor exactly when some pseudo-legal move of byColor ends on it. -/
theorem isAttacked_iff_move_no_pawns (b : Board) (byColor : Color) (r c : Int)
    (hon : onBoard r c = true)
    (hnopawn : ∀ r' c' : Int, onBoard r' c' = true → b.get r' c' ≠ pieceLetter byColor 'p')
    (hcell : validCell (b.get r c) = true) (hnot : ¬ownedBy b byColor r c) :
    isAttacked b r c byColor = true ↔
      ∃ m ∈ pseudoMoves b byColor, m.to_r = r ∧ m.to_c = c := by
  constructor
  · exact move_of_isAttacked b byColor r c hon hnopawn hcell hnot
  · rintro ⟨m, hm, hto⟩
    exact isAttacked_of_move b byColor r c hnopawn m hm hto

theorem endgameBoard_no_white_pawn :
    ∀ r' c' : Int, onBoard r' c' = true →
      endgameBoard.get r' c' ≠ pieceLetter Color.WHITE 'p' :=
  forall_onBoard _ (by decide!)

theorem isAttacked_iff_move_no_pawns_witness :
    (onBoard 0 3 = true ∧
      (∀ r' c' : Int, onBoard r' c' = true →
        endgameBoard.get r' c' ≠ pieceLetter Color.WHITE 'p') ∧
      validCell (endgameBoard.get 0 3) = true ∧ ¬ownedBy endgameBoard Color.WHITE 0 3) ∧
    (isAttacked endgameBoard 0 3 Color.WHITE = true ↔
      ∃ m ∈ pseudoMoves endgameBoard Color.WHITE, m.to_r = 0 ∧ m.to_c = 3) :=
  ⟨⟨by decide, endgameBoard_no_white_pawn, by decide!,
      fun h => h.elim (fun h => absurd h.2 (by decide!)) (fun h => absurd h.1 (by decide))⟩,
    isAttacked_iff_move_no_pawns endgameBoard Color.WHITE 0 3 (by decide)
      endgameBoard_no_white_pawn (by decide!)
      (fun h => h.elim (fun h => absurd h.2 (by decide!)) (fun h => absurd h.1 (by decide)))⟩

/-- Every cell written by `Board::reset` is '.' or a piece letter. -/
theorem validCell_reset (b : Board) :
    ∀ r c : Int, onBoard r c = true → validCell ((reset b).get r c) = true := by
  rw [reset_eq]
  exact forall_onBoard _ (by decide!)

/-- `Board::makeMove` from a square of the board keeps every cell '.' or a piece letter. -/
theorem validCell_makeMove (b : Board) (m : Move) (hfrom : onBoard m.from_r m.from_c = true)
    (hall : ∀ r c : Int, onBoard r c = true → validCell (b.get r c) = true) :
    ∀ r c : Int, onBoard r c = true → validCell ((makeMove b m).get r c) = true := by
  intro r c hon
  rw [makeMove_get b m r c hon]
  split_ifs
  · decide
  · decide
  · decide
  · exact hall _ _ hfrom
  · exact hall _ _ hon

/-! ## The bounds checks never fail -/

theorem get?_eq (b : Board) (r c : Int) (h : onBoard r c = true) :
    b.get? r c = some (b.get r c) := by
  simp [Board.get?, Board.get, h]

theorem set?_eq (b : Board) (r c : Int) (p : Char) (h : onBoard r c = true) :
    b.set? r c p = some (b.set r c p) := by
  simp [Board.set?, Board.set, h]

theorem guardedTest_eq (b : Board) (r c : Int) (P : Char → Bool) :
    guardedTest b r c P = some (onBoard r c && P (b.get r c)) := by
  unfold guardedTest
  by_cases h : onBoard r c = true
  · simp [h, get?_eq b r c h]
  · simp [h]

theorem anyC_eq {α : Type} (fC : α → Option Bool) (f : α → Bool) (l : List α)
    (h : ∀ x ∈ l, fC x = some (f x)) : anyC fC l = some (l.any f) := by
  induction l with
  | nil => rfl
  | cons a as ih =>
    have ha := h a (by simp)
    have ih' := ih (fun x hx => h x (by simp [hx]))
    simp only [anyC, ha, List.any_cons]
    cases f a
    · simpa using ih'
    · simp

theorem findSomeC_eq {α β : Type} (fC : α → Option (Option β)) (f : α → Option β)
    (l : List α) (h : ∀ x ∈ l, fC x = some (f x)) :
    findSomeC fC l = some (l.findSome? f) := by
  induction l with
  | nil => rfl
  | cons a as ih =>
    have ha := h a (by simp)
    have ih' := ih (fun x hx => h x (by simp [hx]))
    simp only [findSomeC, ha, List.findSome?_cons]
    cases f a
    · simpa using ih'
    · simp

theorem foldlM_eq {α β : Type} (fC : β → α → Option β) (f : β → α → β) (l : List α)
    (init : β) (h : ∀ acc, ∀ x ∈ l, fC acc x = some (f acc x)) :
    l.foldlM fC init = some (l.foldl f init) := by
  induction l generalizing init with
  | nil => rfl
  | cons a as ih =>
    rw [List.foldlM_cons, h init a (by simp), List.foldl_cons]
    simp only [Option.bind_eq_bind, Option.some_bind]
    exact ih _ (fun acc x hx => h acc x (by simp [hx]))

theorem slideLoopC_eq (b : Board) (row col : Int) (w : Bool) (dr dc : Int) (fuel : Nat)
    (nr nc : Int) (out : List Move) :
    slideLoopC b row col w dr dc fuel nr nc out =
      some (slideLoop b row col w dr dc fuel nr nc out) := by
  induction fuel generalizing nr nc out with
  | zero => rfl
  | succ n ih =>
    simp only [slideLoopC, slideLoop]
    by_cases hon : onBoard nr nc = true
    · simp only [hon, if_true, get?_eq b nr nc hon]
      split_ifs
      · exact ih _ _ _
      · rfl
      · rfl
    · simp [hon]

theorem addSlidingMovesC_eq (b : Board) (row col : Int) (w : Bool) (dirs : List (Int × Int))
    (out : List Move) :
    addSlidingMovesC b row col w dirs out = some (addSlidingMoves b row col w dirs out) := by
  unfold addSlidingMovesC addSlidingMoves
  exact foldlM_eq _ _ dirs out (fun acc d _ => slideLoopC_eq b row col w d.1 d.2 _ _ _ acc)

theorem addKnightMovesC_eq (b : Board) (row col : Int) (w : Bool) (out : List Move) :
    addKnightMovesC b row col w out = some (addKnightMoves b row col w out) := by
  unfold addKnightMovesC addKnightMoves
  refine foldlM_eq _ _ kKnightDirs out (fun acc d _ => ?_)
  unfold stepC
  by_cases hon : onBoard (row + d.1) (col + d.2) = true
  · simp only [hon, Bool.not_true, Bool.false_eq_true, if_false, get?_eq b _ _ hon]
    split_ifs <;> rfl
  · simp [hon]

theorem addKingMovesC_eq (b : Board) (row col : Int) (w : Bool) (out : List Move) :
    addKingMovesC b row col w out = some (addKingMoves b row col w out) := by
  unfold addKingMovesC addKingMoves
  refine foldlM_eq _ _ kKingDirs out (fun acc d _ => ?_)
  unfold stepC
  by_cases hon : onBoard (row + d.1) (col + d.2) = true
  · simp only [hon, Bool.not_true, Bool.false_eq_true, if_false, get?_eq b _ _ hon]
    split_ifs <;> rfl
  · simp [hon]

theorem addPawnMovesC_eq (b : Board) (row col : Int) (w : Bool) (out : List Move) :
    addPawnMovesC b row col w out = some (addPawnMoves b row col w out) := by
  unfold addPawnMovesC addPawnMoves
  simp only [guardedTest_eq]
  have hcap : ∀ (fwd : Int) (init : List Move),
      ([-1, 1] : List Int).foldlM (fun out dcol =>
        if !onBoard (row + fwd) (col + dcol) then some out
        else
          match b.get? (row + fwd) (col + dcol) with
          | none => none
          | some t =>
            if isOpponentPiece t w then
              some (out ++ [⟨row, col, row + fwd, col + dcol,
                if lastRank w (row + fwd) then 'q' else NUL⟩])
            else some out) init =
      some (([-1, 1] : List Int).foldl (fun out dcol =>
        if !onBoard (row + fwd) (col + dcol) then out
        else if isOpponentPiece (b.get (row + fwd) (col + dcol)) w then
          out ++ [⟨row, col, row + fwd, col + dcol,
            if lastRank w (row + fwd) then 'q' else NUL⟩]
        else out) init) := by
    intro fwd init
    refine foldlM_eq _ _ _ init (fun acc d _ => ?_)
    by_cases hon : onBoard (row + fwd) (col + d) = true
    · simp only [hon, Bool.not_true, Bool.false_eq_true, if_false, get?_eq b _ _ hon]
      split_ifs <;> rfl
    · simp [hon]
  generalize (if w = true then (-1 : Int) else 1) = fwd
  generalize (if w = true then (6 : Int) else 1) = start
  cases h1 : (onBoard (row + fwd) col && isEmpty (b.get (row + fwd) col))
  · simp only [Bool.false_eq_true, if_false]
    exact hcap fwd out
  · simp only [if_true]
    cases h2 : (row == start)
    · simp only [Bool.false_eq_true, if_false]
      exact hcap fwd _
    · simp only [if_true]
      cases h3 : (onBoard (row + 2 * fwd) col && isEmpty (b.get (row + 2 * fwd) col))
      · simp only [Bool.false_eq_true, if_false]
        exact hcap fwd _
      · simp only [if_true]
        exact hcap fwd _

theorem ite_eq_some {α : Type} (c : Prop) [Decidable c] (x y : Option α) (x' y' : α)
    (hx : x = some x') (hy : y = some y') :
    (if c then x else y) = some (if c then x' else y') := by
  split_ifs
  · exact hx
  · exact hy

theorem squareMovesC_eq (b : Board) (side : Color) (row col : Int) (moves : List Move)
    (hon : onBoard row col = true) :
    squareMovesC b side row col moves = some (squareMoves b side row col moves) := by
  unfold squareMovesC squareMoves
  simp only [get?_eq b row col hon]
  refine ite_eq_some _ _ _ _ _ rfl ?_
  refine ite_eq_some _ _ _ _ _ rfl ?_
  refine ite_eq_some _ _ _ _ _ (addPawnMovesC_eq b row col _ moves) ?_
  refine ite_eq_some _ _ _ _ _ (addKnightMovesC_eq b row col _ moves) ?_
  refine ite_eq_some _ _ _ _ _ (addSlidingMovesC_eq b row col _ _ moves) ?_
  refine ite_eq_some _ _ _ _ _ (addSlidingMovesC_eq b row col _ _ moves) ?_
  refine ite_eq_some _ _ _ _ _ (addSlidingMovesC_eq b row col _ _ moves) ?_
  exact ite_eq_some _ _ _ _ _ (addKingMovesC_eq b row col _ moves) rfl

theorem pseudoMovesC_eq (b : Board) (side : Color) :
    pseudoMovesC b side = some (pseudoMoves b side) := by
  unfold pseudoMovesC pseudoMoves
  refine foldlM_eq _ _ _ _ (fun acc row hrow => ?_)
  refine foldlM_eq _ _ _ _ (fun acc col hcol => ?_)
  simp only [List.mem_range, BOARD_SIZE] at hrow hcol
  exact squareMovesC_eq b side row col acc (by rw [onBoard_iff]; omega)

theorem findKingC_eq (b : Board) (col : Color) :
    findKingC b col = some (findKing b col) := by
  unfold findKingC findKing
  refine findSomeC_eq _ _ _ (fun row hrow => ?_)
  refine findSomeC_eq _ _ _ (fun c hc => ?_)
  simp only [List.mem_range, BOARD_SIZE] at hrow hc
  rw [get?_eq b row c (by rw [onBoard_iff]; omega)]

theorem attackRayC_eq (b : Board) (a1 a2 : Char) (dr dc : Int) (fuel : Nat) (sr sc : Int) :
    attackRayC b a1 a2 dr dc fuel sr sc = some (attackRay b a1 a2 dr dc fuel sr sc) := by
  induction fuel generalizing sr sc with
  | zero => rfl
  | succ n ih =>
    simp only [attackRayC, attackRay]
    by_cases hon : onBoard sr sc = true
    · simp only [hon, if_true, get?_eq b sr sc hon]
      split_ifs
      · rfl
      · rfl
      · exact ih _ _
    · simp [hon]

theorem pawnAttackC_eq (b : Board) (r c : Int) (byColor : Color) :
    pawnAttackC b r c byColor = some (pawnAttack b r c byColor) := by
  unfold pawnAttackC pawnAttack
  refine ite_eq_some _ _ _ _ _ ?_ ?_
  · exact anyC_eq _ _ _ (fun d _ => guardedTest_eq b _ _ _)
  · exact anyC_eq _ _ _ (fun d _ => guardedTest_eq b _ _ _)

theorem knightAttackC_eq (b : Board) (r c : Int) (byColor : Color) :
    knightAttackC b r c byColor = some (knightAttack b r c byColor) := by
  unfold knightAttackC knightAttack
  refine anyC_eq _ _ _ (fun d _ => ?_)
  rw [guardedTest_eq]
  cases onBoard (r + d.1) (c + d.2) <;> simp

theorem kingAttackC_eq (b : Board) (r c : Int) (byColor : Color) :
    kingAttackC b r c byColor = some (kingAttack b r c byColor) := by
  unfold kingAttackC kingAttack
  refine anyC_eq _ _ _ (fun d _ => ?_)
  rw [guardedTest_eq]
  cases onBoard (r + d.1) (c + d.2) <;> simp

theorem bishopAttackC_eq (b : Board) (r c : Int) (byColor : Color) :
    bishopAttackC b r c byColor = some (bishopAttack b r c byColor) := by
  unfold bishopAttackC bishopAttack
  exact anyC_eq _ _ _ (fun d _ =>
    ite_eq_some _ _ _ _ _ (attackRayC_eq b _ _ _ _ _ _ _) (attackRayC_eq b _ _ _ _ _ _ _))

theorem rookAttackC_eq (b : Board) (r c : Int) (byColor : Color) :
    rookAttackC b r c byColor = some (rookAttack b r c byColor) := by
  unfold rookAttackC rookAttack
  exact anyC_eq _ _ _ (fun d _ =>
    ite_eq_some _ _ _ _ _ (attackRayC_eq b _ _ _ _ _ _ _) (attackRayC_eq b _ _ _ _ _ _ _))

theorem isAttackedC_eq (b : Board) (r c : Int) (byColor : Color) :
    isAttackedC b r c byColor = some (isAttacked b r c byColor) := by
  unfold isAttackedC isAttacked
  rw [pawnAttackC_eq, knightAttackC_eq, bishopAttackC_eq, rookAttackC_eq, kingAttackC_eq]
  cases pawnAttack b r c byColor <;> cases knightAttack b r c byColor <;>
    cases bishopAttack b r c byColor <;> cases rookAttack b r c byColor <;>
    cases kingAttack b r c byColor <;> rfl

theorem isInCheckC_eq (b : Board) (col : Color) :
    isInCheckC b col = some (isInCheck b col) := by
  unfold isInCheckC isInCheck
  rw [findKingC_eq]
  cases findKing b col with
  | none => rfl
  | some p => exact isAttackedC_eq b p.1 p.2 _

theorem makeMoveC_eq (b : Board) (m : Move) (hfrom : onBoard m.from_r m.from_c = true)
    (hto : onBoard m.to_r m.to_c = true) : makeMoveC b m = some (makeMove b m) := by
  unfold makeMoveC makeMove
  simp only [get?_eq b _ _ hfrom, set?_eq _ _ _ _ hto, set?_eq _ _ _ _ hfrom]
  by_cases hp : m.promotion = NUL
  · simp only [hp, ne_eq, not_true_eq_false, if_false]
  · by_cases hw : isWhitePiece (b.get m.from_r m.from_c) = true
    · simp only [hp, hw, ne_eq, not_false_eq_true, if_true]
    · simp only [hp, hw, ne_eq, not_false_eq_true, if_true, Bool.false_eq_true, if_false]

theorem generateMovesC_eq (b : Board) (side : Color) :
    generateMovesC b side = some (generateMoves b side) := by
  unfold generateMovesC generateMoves
  rw [pseudoMovesC_eq]
  refine foldlM_eq _ _ _ _ (fun legal mv hmv => ?_)
  obtain ⟨hfrom, _, _, hwf⟩ := pseudoMoves_from b side mv hmv
  rw [makeMoveC_eq b mv hfrom hwf.2.2.1]
  simp only [isInCheckC_eq]

/-- C15: with every grid read and write bounds-checked, generateMoves (including the
makeMove calls on its scratch copies), isInCheck, findKing and isAttacked (for all
integers r, c) never take the out-of-range branch and compute the same results. -/
theorem bounds_checks_never_fail (b : Board) (side byColor : Color) (r c : Int) :
    generateMovesC b side = some (generateMoves b side) ∧
    isInCheckC b side = some (isInCheck b side) ∧
    findKingC b side = some (findKing b side) ∧
    isAttackedC b r c byColor = some (isAttacked b r c byColor) :=
  ⟨generateMovesC_eq b side, isInCheckC_eq b side, findKingC_eq b side,
    isAttackedC_eq b r c byColor⟩

end Chess
